import Mathlib

/-!
# Verification of the content pipeline of `main.go` (blog engine)

This file gives a shallow embedding of the content pipeline of the Go
source file `src/main.go`: string helpers from the Go standard library
(`strings`), metadata extraction (`extractMeta`, `extractContent`),
heading indexing (`generateID`, `processContentWithTOC`), date parsing
and formatting (`time.Parse("2006-01-02", _)`, `time.Format`),
the repository loaders (`loadPost`, `loadPosts`, `loadCollection`),
the collection ranker (`getCollectionPosition`) and the feed item
builder (`buildRSSFeed`).  The filesystem is modeled as association
lists of `(filename, content)` pairs listed in the traversal order of
`filepath.WalkDir` (lexical by filename).  The sorting routine
`sort.Slice` of the Go standard library is modeled by its actual
implementation (pattern-defeating quicksort, Go >= 1.19), because the
tie-breaking behavior of the sort is observable in the repository's
output and `sort.Slice` is documented as not stable.

Strings are processed through their character lists; Go compares and
splits strings byte-wise over UTF-8, which induces the same order and
the same splits as code-point-wise processing, since UTF-8 is
order-preserving and ASCII delimiters never occur inside a multi-byte
encoding.
-/

namespace BreakLab

/-! ## Go `strings` helpers, modeled on character lists -/

/-- `strings.HasPrefix` on character lists. -/
def goStartsWith (s pre : String) : Bool :=
  pre.toList.isPrefixOf s.toList

/-- `strings.HasSuffix` on character lists. -/
def goEndsWith (s suf : String) : Bool :=
  suf.toList.reverse.isPrefixOf s.toList.reverse

/-- Occurrence test for `strings.Contains`: does `nd` occur as a
contiguous run inside the second list? -/
def containsSub (nd : List Char) : List Char → Bool
  | [] => nd.isEmpty
  | c :: cs => nd.isPrefixOf (c :: cs) || containsSub nd cs

/-- `strings.Contains`. -/
def goContains (s sub : String) : Bool :=
  containsSub sub.toList s.toList

/-- `strings.TrimPrefix`. -/
def goTrimPre (s pre : String) : String :=
  if goStartsWith s pre then String.mk (s.toList.drop pre.toList.length) else s

/-- `strings.TrimSuffix`. -/
def goTrimSuf (s suf : String) : String :=
  if goEndsWith s suf then
    String.mk (s.toList.take (s.toList.length - suf.toList.length))
  else s

/-- `unicode.IsSpace`: Go's white space class (Latin-1 fast path plus
the `White_Space` code points above Latin-1). -/
def goIsSpace (c : Char) : Bool :=
  c == ' ' || c == '\t' || c == '\n' || (0xB ≤ c.toNat && c.toNat ≤ 0xD)
    || c.toNat == 0x85 || c.toNat == 0xA0
    || c.toNat == 0x1680 || (0x2000 ≤ c.toNat && c.toNat ≤ 0x200A)
    || c.toNat == 0x2028 || c.toNat == 0x2029 || c.toNat == 0x202F
    || c.toNat == 0x205F || c.toNat == 0x3000

/-- `strings.TrimSpace`: drop white space from both ends. -/
def goTrimSpace (s : String) : String :=
  String.mk (((s.toList.dropWhile goIsSpace).reverse.dropWhile goIsSpace).reverse)

/-- Splitting a character list at each newline character, accumulator
holds the current piece reversed (`strings.Split(s, "\n")`). -/
def splitNlAux : List Char → List Char → List (List Char)
  | acc, [] => [acc.reverse]
  | acc, c :: cs =>
    if c == '\n' then acc.reverse :: splitNlAux [] cs else splitNlAux (c :: acc) cs

/-- `strings.Split(s, "\n")`. -/
def goSplitNl (s : String) : List String :=
  (splitNlAux [] s.toList).map String.mk

/-- One field-splitting step for `strings.Fields`: `none` while between
fields, `some acc` while inside a field (accumulated reversed). -/
def goFieldsAux : Option (List Char) → List Char → List (List Char)
  | none, [] => []
  | some acc, [] => [acc.reverse]
  | none, c :: cs =>
    if goIsSpace c then goFieldsAux none cs else goFieldsAux (some [c]) cs
  | some acc, c :: cs =>
    if goIsSpace c then acc.reverse :: goFieldsAux none cs
    else goFieldsAux (some (c :: acc)) cs

/-- `strings.Fields`: the maximal runs of non-white-space characters. -/
def goFields (s : String) : List String :=
  (goFieldsAux none s.toList).map String.mk

/-- Lexicographic strict comparison of character lists (mirrors
`List.lt`, executable by the kernel). -/
def listLtChars : List Char → List Char → Bool
  | [], [] => false
  | [], _ :: _ => true
  | _ :: _, [] => false
  | a :: as, b :: bs =>
    if a < b then true else if b < a then false else listLtChars as bs

/-- Go string comparison `<` (byte-wise lexicographic, equivalently
code-point-wise lexicographic under UTF-8). -/
def goStrLt (a b : String) : Bool :=
  listLtChars a.toList b.toList

/-! ## Metadata extractor (`extractMeta`, `extractContent`) -/

/-- `extractMeta(lines, key)`: scan the lines for the first one with
prefix `"<!-- " + key + ": "`; trim that prefix, then the suffix
`" -->"` if present, then surrounding white space.  Empty string when
no line matches. -/
def extractMeta (lines : List String) (key : String) : String :=
  match lines with
  | [] => ""
  | line :: rest =>
    if goStartsWith line ("<!-- " ++ key ++ ": ") then
      goTrimSpace (goTrimSuf (goTrimPre line ("<!-- " ++ key ++ ": ")) (" -->"))
    else extractMeta rest key

/-- The four reserved metadata key substrings of `extractContent`. -/
def metaKeys : List String :=
  [("title:"), ("date:"), ("description:"), ("collection:")]

/-- The loop body test of `extractContent`: the line starts with
`<!--` and contains one of the reserved key substrings. -/
def isMetaLine (line : String) : Bool :=
  goStartsWith line ("<!--") && metaKeys.any (fun key => goContains line key)

/-- The filtering loop of `extractContent`. -/
def extractContentLines : List String → List String
  | [] => []
  | line :: rest =>
    if isMetaLine line then extractContentLines rest
    else line :: extractContentLines rest

/-- `extractContent(lines)`: drop the metadata lines and rejoin the
remaining lines with newlines. -/
def extractContent (lines : List String) : String :=
  String.intercalate ("\n") (extractContentLines lines)

/-! ## Heading indexer (`generateID`, `processContentWithTOC`) -/

/-- One entry of the table of contents (Go struct `TOCItem`). -/
structure TOCItem where
  ID : String
  Text : String
  Level : Nat
deriving DecidableEq, Inhabited, Repr

/-- The remainder after the first `>`, or `none` when no `>` occurs. -/
def dropThroughGt : List Char → Option (List Char)
  | [] => none
  | c :: cs => if c == '>' then some cs else dropThroughGt cs

/-- Fuel-driven loop of the tag stripper (the fuel is at least the
input length plus one on the instance used, so the zero-fuel branch
never fires). -/
def stripTagsFuel : Nat → List Char → List Char
  | 0, l => l
  | _ + 1, [] => []
  | fuel + 1, c :: cs =>
    if c == '<' then
      match dropThroughGt cs with
      | some rest => stripTagsFuel fuel rest
      | none => c :: stripTagsFuel fuel cs
    else c :: stripTagsFuel fuel cs

/-- Tag stripping for `regexp.MustCompile("<[^>]*>").ReplaceAllString(text, "")`:
at `<`, when a `>` occurs later, drop everything through the first
such `>`; a `<` with no later `>` cannot start a match and stays. -/
def stripTags (l : List Char) : List Char :=
  stripTagsFuel (l.length + 1) l

/-- ASCII lower-casing character map (`strings.ToLower`; the headings
verified here are ASCII, the full Unicode case table is omitted). -/
def goToLowerChar (c : Char) : Char :=
  if 'A' ≤ c ∧ c ≤ 'Z' then Char.ofNat (c.toNat + 32) else c

/-- Is the character in `[a-z0-9]`? -/
def isIdChar (c : Char) : Bool :=
  ('a' ≤ c && c ≤ 'z') || ('0' ≤ c && c ≤ '9')

/-- Fuel-driven loop of the hyphenation pass. -/
def hyphenateRunsFuel : Nat → List Char → List Char
  | 0, l => l
  | _ + 1, [] => []
  | fuel + 1, c :: cs =>
    if isIdChar c then c :: hyphenateRunsFuel fuel cs
    else '-' :: hyphenateRunsFuel fuel (cs.dropWhile (fun d => !(isIdChar d)))

/-- `regexp.MustCompile("[^a-z0-9]+").ReplaceAllString(text, "-")`:
replace each maximal run of characters outside `[a-z0-9]` by one
hyphen. -/
def hyphenateRuns (l : List Char) : List Char :=
  hyphenateRunsFuel (l.length + 1) l

/-- `strings.Trim(text, "-")`: drop hyphens from both ends. -/
def trimHyphens (l : List Char) : List Char :=
  ((l.dropWhile (fun c => c == '-')).reverse.dropWhile (fun c => c == '-')).reverse

/-- `generateID(text)`: strip tags, lower-case, trim white space,
hyphenate non-alphanumeric runs, trim hyphens. -/
def generateID (text : List Char) : String :=
  String.mk (trimHyphens (hyphenateRuns
    ((goTrimSpace (String.mk ((stripTags text).map goToLowerChar))).toList)))

/-- Find the first occurrence of the closing tag after the current
position, failing on a newline first: Go's `.` inside the non-greedy
group `(.*?)` does not match a newline, so a heading match never spans
lines.  Returns the inner text and the remainder after the tag. -/
def findClose (close : List Char) : List Char → Option (List Char × List Char)
  | [] => none
  | c :: cs =>
    if close.isPrefixOf (c :: cs) then some ([], (c :: cs).drop close.length)
    else if c == '\n' then none
    else
      match findClose close cs with
      | some (inner, rest) => some (c :: inner, rest)
      | none => none

/-- One `ReplaceAllStringFunc` pass of `processContentWithTOC` for the
heading of digit `tagNum` (`'2'` or `'3'`): non-overlapping leftmost
matches of `<hN>(.*?)</hN>` are rewritten to carry `id="..."`, and one
outline entry per match is appended in document order.  The fuel is at
least the input length plus one, so the zero-fuel branch is never
taken on the instances used. -/
def tocPassFuel (tagNum : Char) (level : Nat) : Nat → List Char → List Char × List TOCItem
  | 0, cs => (cs, [])
  | _ + 1, [] => ([], [])
  | fuel + 1, c :: cs =>
    let openTag : List Char := ['<', 'h', tagNum, '>']
    let closeTag : List Char := ['<', '/', 'h', tagNum, '>']
    if openTag.isPrefixOf (c :: cs) then
      match findClose closeTag ((c :: cs).drop openTag.length) with
      | some (inner, rest) =>
        let idStr := generateID inner
        let item : TOCItem := { ID := idStr, Text := String.mk inner, Level := level }
        let repl : List Char :=
          ['<', 'h', tagNum, ' ', 'i', 'd', '=', '"'] ++ idStr.toList
            ++ ['"', '>'] ++ inner ++ ['<', '/', 'h', tagNum, '>']
        let next := tocPassFuel tagNum level fuel rest
        (repl ++ next.1, item :: next.2)
      | none =>
        let next := tocPassFuel tagNum level fuel cs
        (c :: next.1, next.2)
    else
      let next := tocPassFuel tagNum level fuel cs
      (c :: next.1, next.2)

/-- `processContentWithTOC(content)`: the `<h2>` pass runs over the
whole body first, then the `<h3>` pass runs over the rewritten body;
the outline is the concatenation of the two passes' entries. -/
def processContentWithTOC (content : String) : String × List TOCItem :=
  let p2 := tocPassFuel '2' 2 (content.toList.length + 1) content.toList
  let p3 := tocPassFuel '3' 3 (p2.1.length + 1) p2.1
  (String.mk p3.1, p2.2 ++ p3.2)

/-! ## Dates (`time.Parse("2006-01-02", _)` and `time.Format`) -/

/-- Is the year a Gregorian leap year? -/
def isLeapYear (y : Nat) : Bool :=
  (y % 4 == 0 && y % 100 != 0) || y % 400 == 0

/-- Number of days of a month (`time.Parse` checks the day of the
month against this when validating). -/
def goDaysInMonth (y m : Nat) : Nat :=
  if m == 2 then (if isLeapYear y then 29 else 28)
  else if m == 4 || m == 6 || m == 9 || m == 11 then 30
  else 31

/-- Decimal value of a digit character. -/
def digitVal (c : Char) : Nat := c.toNat - 48

/-- `time.Parse("2006-01-02", s)`: exactly ten characters `YYYY-MM-DD`
with all-digit fields, month between 1 and 12, day between 1 and the
month length; `none` models the parse error. -/
def goParseISODate (s : String) : Option (Nat × Nat × Nat) :=
  match s.toList with
  | [ya, yb, yc, yd, s1, ma, mb, s2, da, db] =>
    if ya.isDigit && yb.isDigit && yc.isDigit && yd.isDigit
        && s1 == '-' && ma.isDigit && mb.isDigit
        && s2 == '-' && da.isDigit && db.isDigit then
      let y := ((digitVal ya * 10 + digitVal yb) * 10 + digitVal yc) * 10 + digitVal yd
      let m := digitVal ma * 10 + digitVal mb
      let d := digitVal da * 10 + digitVal db
      if 1 ≤ m && m ≤ 12 && 1 ≤ d && d ≤ goDaysInMonth y m then
        some (y, m, d)
      else none
    else none
  | _ => none

/-- Cumulative day count before the month, in a non-leap year. -/
def daysBeforeMonth (m : Nat) : Nat :=
  [0, 31, 59, 90, 120, 151, 181, 212, 243, 273, 304, 334].getD (m - 1) 0

/-- Proleptic-Gregorian day number of a date, with `0001-01-01 = 1`. -/
def rataDie (y m d : Nat) : Nat :=
  365 * (y - 1) + ((y - 1) / 4 + (y - 1) / 400) - (y - 1) / 100
    + daysBeforeMonth m + (if 2 < m && isLeapYear y then 1 else 0) + d

/-- Three-letter weekday name of a date (`0001-01-01` is a Monday). -/
def weekday3 (y m d : Nat) : String :=
  [("Sun"), ("Mon"), ("Tue"), ("Wed"), ("Thu"), ("Fri"), ("Sat")].getD (rataDie y m d % 7) ""

/-- Three-letter month name. -/
def month3 (m : Nat) : String :=
  [("Jan"), ("Feb"), ("Mar"), ("Apr"), ("May"), ("Jun"), ("Jul"),
    ("Aug"), ("Sep"), ("Oct"), ("Nov"), ("Dec")].getD (m - 1) ""

/-- Full month name. -/
def monthFull (m : Nat) : String :=
  [("January"), ("February"), ("March"), ("April"), ("May"), ("June"), ("July"),
    ("August"), ("September"), ("October"), ("November"), ("December")].getD (m - 1) ""

/-- Zero-padded two-digit decimal. -/
def pad2 (n : Nat) : String :=
  if n < 10 then "0" ++ toString n else toString n

/-- Zero-padded four-digit decimal. -/
def pad4 (n : Nat) : String :=
  if n < 10 then "000" ++ toString n
  else if n < 100 then "00" ++ toString n
  else if n < 1000 then "0" ++ toString n
  else toString n

/-- `t.Format(time.RFC1123Z)` for a date parsed from `YYYY-MM-DD`
(time of day is midnight UTC, so the zone renders as `+0000`). -/
def goFormatRFC1123Z (y m d : Nat) : String :=
  weekday3 y m d ++ ", " ++ pad2 d ++ " " ++ month3 m ++ " " ++ pad4 y ++ " 00:00:00 +0000"

/-- `t.Format("January 2, 2006")` (day not padded). -/
def goFormatLongDate (y m d : Nat) : String :=
  monthFull m ++ " " ++ toString d ++ ", " ++ pad4 y

/-! ## Model of `sort.Slice` (Go standard library)

`sort.Slice` runs `pdqsort_func(lessSwap{less, swap}, 0, n, bits.Len(n))`
(pattern-defeating quicksort, Go 1.19 and later).  The model below follows
`src/sort/zsortfunc.go` helper by helper.  `sort.Slice` is documented as
NOT stable; ranges of at most 12 elements are insertion-sorted, which is
where the stable behavior on small repositories comes from. -/

section SortSlice

variable {α : Type} [Inhabited α]

/-- Fuel-driven binary length (the fuel is at least the argument, so
the zero-fuel branch never fires on the instances used). -/
def bitsLenFuel : Nat → Nat → Nat
  | 0, _ => 0
  | fuel + 1, n => if n == 0 then 0 else bitsLenFuel fuel (n / 2) + 1

/-- `bits.Len(n)`: the number of bits of `n`. -/
def bitsLen (n : Nat) : Nat := bitsLenFuel n n

/-- `data.Swap(i, j)`; out-of-range indices (which the algorithm never
produces) leave the array unchanged. -/
def goSwap (arr : Array α) (i j : Nat) : Array α :=
  if h : i < arr.size ∧ j < arr.size then arr.swap ⟨i, h.1⟩ ⟨j, h.2⟩ else arr

/-- The inner loop of Go's `insertionSort_func`: the new element sinks
left past every element it is `less` than.  The first argument list is
the already-sorted prefix, reversed (its head is the prefix's last
element, the first candidate to compare against). -/
def goSinkRev (less : α → α → Bool) (x : α) : List α → List α
  | [] => [x]
  | y :: rev => if less x y then y :: goSinkRev less x rev else x :: y :: rev

/-- Outer loop of `insertionSort_func`: fold the elements into the
sorted prefix (kept reversed in the accumulator). -/
def goInsertionSortAux (less : α → α → Bool) : List α → List α → List α
  | rev, [] => rev.reverse
  | rev, x :: rest => goInsertionSortAux less (goSinkRev less x rev) rest

/-- Go `insertionSort_func` on a whole list. -/
def goInsertionSort (less : α → α → Bool) (l : List α) : List α :=
  goInsertionSortAux less [] l

/-- `insertionSort_func(data, a, b)`: sort the range `[a, b)` in place
and keep everything outside it. -/
def goInsertionSortRange (less : α → α → Bool) (arr : Array α) (a b : Nat) : Array α :=
  let seg := (arr.toList.drop a).take (b - a)
  ((arr.toList.take a) ++ goInsertionSort less seg ++ (arr.toList.drop (a + seg.length))).toArray

/-- `order2_func`: order two indices by their elements, counting a swap. -/
def goOrder2 (less : α → α → Bool) (arr : Array α) (a b swaps : Nat) : Nat × Nat × Nat :=
  if less (arr.get! b) (arr.get! a) then (b, a, swaps + 1) else (a, b, swaps)

/-- `median_func`: index of the median of three elements, tracking the
number of swaps performed by the three `order2` steps. -/
def goMedian (less : α → α → Bool) (arr : Array α) (i j k swaps : Nat) : Nat × Nat :=
  let r1 := goOrder2 less arr i j swaps
  let r2 := goOrder2 less arr r1.2.1 k r1.2.2
  let r3 := goOrder2 less arr r1.1 r2.1 r2.2.2
  (r3.2.1, r3.2.2)

/-- `medianAdjacent_func`: median of `arr[a-1], arr[a], arr[a+1]`. -/
def goMedianAdj (less : α → α → Bool) (arr : Array α) (a swaps : Nat) : Nat × Nat :=
  goMedian less arr (a - 1) a (a + 1) swaps

/-- The `sortedHint` values of `choosePivot_func`. -/
inductive SortHint where
  | inc : SortHint
  | dec : SortHint
  | unknown : SortHint
deriving DecidableEq

/-- `choosePivot_func`: median of three candidates (median-of-medians
for 50 elements or more), with the hint derived from the swap count
(`0` increasing, `12` decreasing, otherwise unknown). -/
def goChoosePivot (less : α → α → Bool) (arr : Array α) (a b : Nat) : Nat × SortHint :=
  let l := b - a
  let i := a + l / 4 * 1
  let j := a + l / 4 * 2
  let k := a + l / 4 * 3
  if 8 ≤ l then
    let cand :=
      if 50 ≤ l then
        let r1 := goMedianAdj less arr i 0
        let r2 := goMedianAdj less arr j r1.2
        let r3 := goMedianAdj less arr k r2.2
        (r1.1, r2.1, r3.1, r3.2)
      else (i, j, k, 0)
    let rm := goMedian less arr cand.1 cand.2.1 cand.2.2.1 cand.2.2.2
    (rm.1, if rm.2 == 0 then SortHint.inc else if rm.2 == 12 then SortHint.dec
      else SortHint.unknown)
  else (j, SortHint.inc)

/-- `reverseRange_func` inner loop (fuel-bounded two-pointer swap). -/
def goReverseLoop : Nat → Array α → Nat → Nat → Array α
  | 0, arr, _, _ => arr
  | fuel + 1, arr, i, j =>
    if i < j then goReverseLoop fuel (goSwap arr i j) (i + 1) (j - 1) else arr

/-- `reverseRange_func(data, a, b)`. -/
def goReverseRange (arr : Array α) (a b : Nat) : Array α :=
  goReverseLoop (arr.size + 1) arr a (b - 1)

/-- `partition_func` left scan: advance `i` while `i ≤ j` and
`arr[i] < arr[a]` (the pivot sits at `a` during partitioning). -/
def goAdvanceI (less : α → α → Bool) (arr : Array α) (a : Nat) : Nat → Nat → Nat → Nat
  | 0, i, _ => i
  | fuel + 1, i, j =>
    if i ≤ j && less (arr.get! i) (arr.get! a) then goAdvanceI less arr a fuel (i + 1) j
    else i

/-- `partition_func` right scan: retreat `j` while `i ≤ j` and
`¬(arr[j] < arr[a])`. -/
def goRetreatJ (less : α → α → Bool) (arr : Array α) (a : Nat) : Nat → Nat → Nat → Nat
  | 0, _, j => j
  | fuel + 1, i, j =>
    if i ≤ j && !(less (arr.get! j) (arr.get! a)) then goRetreatJ less arr a fuel i (j - 1)
    else j

/-- Main loop of `partition_func`: scan, swap, repeat until the
pointers cross; returns the array and the final `j`. -/
def goPartitionLoop (less : α → α → Bool) (a fa : Nat) :
    Nat → Array α → Nat → Nat → Array α × Nat
  | 0, arr, _, j => (arr, j)
  | fuel + 1, arr, i, j =>
    let i2 := goAdvanceI less arr a fa i j
    let j2 := goRetreatJ less arr a fa i2 j
    if j2 < i2 then (arr, j2)
    else goPartitionLoop less a fa fuel (goSwap arr i2 j2) (i2 + 1) (j2 - 1)

/-- `partition_func(data, a, b, pivot)`: Hoare partition with the pivot
parked at `a`; returns the array, the final pivot position, and the
already-partitioned flag. -/
def goPartition (less : α → α → Bool) (arr0 : Array α) (a b pivot : Nat) :
    Array α × Nat × Bool :=
  let arr := goSwap arr0 a pivot
  let fa := arr.size + 2
  let i1 := goAdvanceI less arr a fa (a + 1) (b - 1)
  let j1 := goRetreatJ less arr a fa i1 (b - 1)
  if j1 < i1 then (goSwap arr j1 a, j1, true)
  else
    let arr2 := goSwap arr i1 j1
    let r := goPartitionLoop less a fa arr2.size arr2 (i1 + 1) (j1 - 1)
    (goSwap r.1 r.2 a, r.2, false)

/-- `partitionEqual_func` left scan: advance `i` while `i ≤ j` and
`¬(arr[a] < arr[i])` (elements equal to the pivot). -/
def goAdvanceEqI (less : α → α → Bool) (arr : Array α) (a : Nat) : Nat → Nat → Nat → Nat
  | 0, i, _ => i
  | fuel + 1, i, j =>
    if i ≤ j && !(less (arr.get! a) (arr.get! i)) then goAdvanceEqI less arr a fuel (i + 1) j
    else i

/-- `partitionEqual_func` right scan: retreat `j` while `i ≤ j` and
`arr[a] < arr[j]`. -/
def goRetreatEqJ (less : α → α → Bool) (arr : Array α) (a : Nat) : Nat → Nat → Nat → Nat
  | 0, _, j => j
  | fuel + 1, i, j =>
    if i ≤ j && less (arr.get! a) (arr.get! j) then goRetreatEqJ less arr a fuel i (j - 1)
    else j

/-- Main loop of `partitionEqual_func`; returns the array and final `i`. -/
def goPartitionEqualLoop (less : α → α → Bool) (a fa : Nat) :
    Nat → Array α → Nat → Nat → Array α × Nat
  | 0, arr, i, _ => (arr, i)
  | fuel + 1, arr, i, j =>
    let i2 := goAdvanceEqI less arr a fa i j
    let j2 := goRetreatEqJ less arr a fa i2 j
    if j2 < i2 then (arr, i2)
    else goPartitionEqualLoop less a fa fuel (goSwap arr i2 j2) (i2 + 1) (j2 - 1)

/-- `partitionEqual_func(data, a, b, pivot)`: move the elements equal
to the pivot to the front of the range; returns the first index past
them. -/
def goPartitionEqual (less : α → α → Bool) (arr0 : Array α) (a b pivot : Nat) :
    Array α × Nat :=
  let arr := goSwap arr0 a pivot
  let fa := arr.size + 2
  goPartitionEqualLoop less a fa arr.size arr (a + 1) (b - 1)

/-- Scan of `partialInsertionSort_func`: advance `i` while the
adjacent pair `arr[i-1], arr[i]` is in order. -/
def goSortedScan (less : α → α → Bool) (arr : Array α) (b : Nat) : Nat → Nat → Nat
  | 0, i => i
  | fuel + 1, i =>
    if i < b && !(less (arr.get! i) (arr.get! (i - 1))) then goSortedScan less arr b fuel (i + 1)
    else i

/-- Left shift loop of `partialInsertionSort_func`. -/
def goShiftLeft (less : α → α → Bool) : Nat → Array α → Nat → Array α
  | 0, arr, _ => arr
  | fuel + 1, arr, j =>
    if 1 ≤ j && less (arr.get! j) (arr.get! (j - 1)) then
      goShiftLeft less fuel (goSwap arr j (j - 1)) (j - 1)
    else arr

/-- Right shift loop of `partialInsertionSort_func`. -/
def goShiftRight (less : α → α → Bool) (b : Nat) : Nat → Array α → Nat → Array α
  | 0, arr, _ => arr
  | fuel + 1, arr, j =>
    if j < b && less (arr.get! j) (arr.get! (j - 1)) then
      goShiftRight less b fuel (goSwap arr j (j - 1)) (j + 1)
    else arr

/-- `partialInsertionSort_func(data, a, b)`: up to `maxSteps = 5`
adjacent out-of-order pairs are repaired (shifting only for 50 or more
elements); reports whether the range ended up sorted.  The counter
argument models the remaining steps. -/
def goAlmostSortedLoop (less : α → α → Bool) (a b : Nat) :
    Nat → Array α → Nat → Array α × Bool
  | 0, arr, _ => (arr, false)
  | step + 1, arr, i =>
    let i2 := goSortedScan less arr b (arr.size + 2) i
    if i2 == b then (arr, true)
    else if b - a < 50 then (arr, false)
    else
      let arr2 := goSwap arr i2 (i2 - 1)
      let arr3 := if 2 ≤ i2 - a then goShiftLeft less (arr2.size + 2) arr2 (i2 - 1) else arr2
      let arr4 := if 2 ≤ b - i2 then goShiftRight less b (arr3.size + 2) arr3 (i2 + 1) else arr3
      goAlmostSortedLoop less a b step arr4 i2

/-- `partialInsertionSort_func(data, a, b)`. -/
def goAlmostSorted (less : α → α → Bool) (arr : Array α) (a b : Nat) : Array α × Bool :=
  goAlmostSortedLoop less a b 5 arr (a + 1)

/-- `siftDown_func(data, root, hi, first)`. -/
def goSiftDown (less : α → α → Bool) (first hi : Nat) : Nat → Array α → Nat → Array α
  | 0, arr, _ => arr
  | fuel + 1, arr, root =>
    let child0 := 2 * root + 1
    if hi ≤ child0 then arr
    else
      let child :=
        if child0 + 1 < hi && less (arr.get! (first + child0)) (arr.get! (first + child0 + 1))
        then child0 + 1 else child0
      if !(less (arr.get! (first + root)) (arr.get! (first + child))) then arr
      else goSiftDown less first hi fuel (goSwap arr (first + root) (first + child)) child

/-- Heap construction loop of `heapSort_func` (`i` runs from
`(hi-1)/2` down to `0`; the counter is `i + 1`). -/
def goHeapifyLoop (less : α → α → Bool) (first hi : Nat) : Nat → Array α → Array α
  | 0, arr => arr
  | k + 1, arr => goHeapifyLoop less first hi k (goSiftDown less first hi (arr.size + 2) arr k)

/-- Pop loop of `heapSort_func` (`i` runs from `hi - 1` down to `0`). -/
def goHeapPopLoop (less : α → α → Bool) (first : Nat) : Nat → Array α → Array α
  | 0, arr => arr
  | k + 1, arr =>
    goHeapPopLoop less first k
      (goSiftDown less first k (arr.size + 2) (goSwap arr first (first + k)) 0)

/-- `heapSort_func(data, a, b)`. -/
def goHeapSort (less : α → α → Bool) (arr : Array α) (a b : Nat) : Array α :=
  let hi := b - a
  goHeapPopLoop less a hi (goHeapifyLoop less a hi ((hi - 1) / 2 + 1) arr)

/-- One step of the `xorshift` pseudo-random generator used by
`breakPatterns_func` (64-bit shifts reduced modulo `2 ^ 64`). -/
def xorshiftNext (r : Nat) : Nat :=
  let m := 2 ^ 64
  let r1 := (r ^^^ (r <<< 13)) % m
  let r2 := r1 ^^^ (r1 >>> 7)
  (r2 ^^^ (r2 <<< 17)) % m

/-- `breakPatterns_func(data, a, b)`: for eight or more elements, swap
three positions around the middle with pseudo-random targets (the
generator is seeded with the length, so the model is deterministic,
as the Go code is). -/
def goBreakPatterns (arr : Array α) (a b : Nat) : Array α :=
  let length := b - a
  if 8 ≤ length then
    let modulus := 2 ^ (bitsLen length)
    let idx := a + (length / 4) * 2 - 1
    let pick : Nat → Nat := fun r =>
      let other := r &&& (modulus - 1)
      if length ≤ other then other - length else other
    let r1 := xorshiftNext length
    let arr1 := goSwap arr (idx - 1) (a + pick r1)
    let r2 := xorshiftNext r1
    let arr2 := goSwap arr1 idx (a + pick r2)
    let r3 := xorshiftNext r2
    goSwap arr2 (idx + 1) (a + pick r3)
  else arr

/-- The `breakPatterns` step of one `pdqsort_func` iteration (runs
when the previous partitioning was imbalanced), with the limit
decrement; returns the array and the remaining limit. -/
def goPdqStage1 (arr : Array α) (a b limit : Nat) (wasBalanced : Bool) : Array α × Nat :=
  if !wasBalanced then (goBreakPatterns arr a b, limit - 1) else (arr, limit)

/-- The pivot choice of one iteration, with the decreasing-hint
reversal applied; returns the array, the limit, the pivot index and
the hint. -/
def goPdqStage2 (less : α → α → Bool) (a b : Nat) (st : Array α × Nat) :
    Array α × Nat × Nat × SortHint :=
  match goChoosePivot less st.1 a b with
  | (pivot0, hint0) =>
    if hint0 == SortHint.dec then
      (goReverseRange st.1 a b, st.2, (b - 1) - (pivot0 - a), SortHint.inc)
    else (st.1, st.2, pivot0, hint0)

/-- The `partialInsertionSort` attempt of one iteration (only when the
previous iteration was balanced and partitioned and the hint is
increasing); returns the array, the limit, the pivot and the
already-sorted flag. -/
def goPdqStage3 (less : α → α → Bool) (a b : Nat) (wasBalanced wasPartitioned : Bool)
    (st : Array α × Nat × Nat × SortHint) : Array α × Nat × Nat × Bool :=
  if wasBalanced && wasPartitioned && (st.2.2.2 == SortHint.inc) then
    match goAlmostSorted less st.1 a b with
    | (arr2, done) => (arr2, st.2.1, st.2.2.1, done)
  else (st.1, st.2.1, st.2.2.1, false)

/-- `pdqsort_func(data, a, b, limit)` with the two balance flags made
explicit (they are the local variables `wasBalanced` and
`wasPartitioned`, initially `true`; the `continue` of the Go loop is
the tail call that keeps them, a recursive call resets them).  The
fuel bounds the recursion depth, which is at most the range length, so
a fuel of `length + 1` is never exhausted. -/
def goPdqsort (less : α → α → Bool) :
    Nat → Array α → Nat → Nat → Nat → Bool → Bool → Array α
  | 0, arr, _, _, _, _, _ => arr
  | fuel + 1, arr, a, b, limit, wasBalanced, wasPartitioned =>
    if b - a ≤ 12 then goInsertionSortRange less arr a b
    else if limit == 0 then goHeapSort less arr a b
    else
      match goPdqStage3 less a b wasBalanced wasPartitioned
          (goPdqStage2 less a b (goPdqStage1 arr a b limit wasBalanced)) with
      | (arr3, limit1, pivot, done) =>
        if done then arr3
        else if 0 < a && !(less (arr3.get! (a - 1)) (arr3.get! pivot)) then
          match goPartitionEqual less arr3 a b pivot with
          | (arr4, mid) =>
            goPdqsort less fuel arr4 mid b limit1 wasBalanced wasPartitioned
        else
          match goPartition less arr3 a b pivot with
          | (arr4, mid, alreadyPartitioned) =>
            if mid - a < b - mid then
              goPdqsort less fuel
                (goPdqsort less fuel arr4 a mid limit1 true true)
                (mid + 1) b limit1
                (decide ((b - a) / 8 ≤ Nat.min (mid - a) (b - mid))) alreadyPartitioned
            else
              goPdqsort less fuel
                (goPdqsort less fuel arr4 (mid + 1) b limit1 true true)
                a mid limit1
                (decide ((b - a) / 8 ≤ Nat.min (mid - a) (b - mid))) alreadyPartitioned

/-- `sort.Slice(x, less)`: `pdqsort_func(lessSwap{less, swap}, 0, n,
bits.Len(n))`, applied to a list through an array. -/
def goSortSlice (less : α → α → Bool) (l : List α) : List α :=
  (goPdqsort less (l.length + 1) l.toArray 0 l.length (bitsLen l.length) true true).toList

end SortSlice

/-! ## Data model and modeled filesystem -/

/-- Go struct `Post` (`template.HTML` fields modeled as strings). -/
structure Post where
  Slug : String
  Title : String
  Description : String
  Date : String
  RawDate : String
  Collection : String
  CollectionTitle : String
  CollectionDescription : String
  CollectionIndex : Nat
  CollectionTotal : Nat
  Content : String
  ReadTimeInMinutes : Nat
  TOC : List TOCItem
  PageType : String
deriving DecidableEq, Inhabited, Repr

/-- Go struct `Collection`. -/
structure Collection where
  Slug : String
  Title : String
  Description : String
  DescriptionText : String
  Posts : List Post
  PageType : String
deriving DecidableEq, Inhabited, Repr

/-- Go struct `Item` (one RSS feed entry). -/
structure Item where
  Title : String
  Link : String
  Description : String
  PubDate : String
  GUID : String
deriving DecidableEq, Inhabited, Repr

/-- The content directories: `(filename, content)` pairs for the flat
`posts/` and `collections/` roots, listed in the traversal order of
`filepath.WalkDir` (lexical by filename). -/
structure GoFS where
  posts : List (String × String)
  collections : List (String × String)

/-- `os.ReadFile` on a modeled directory: content of the first entry
with the given filename, `none` for a read error (no such file). -/
def fsFind : List (String × String) → String → Option String
  | [], _ => none
  | e :: rest, name => if e.1 == name then some e.2 else fsFind rest name

/-- The `\s` class of Go's `regexp` package (ASCII only). -/
def goRegexSpace (c : Char) : Bool :=
  c == '\t' || c == '\n' || c == '\x0c' || c == '\r' || c == ' '

/-- Fuel-driven loop of the white-space collapsing pass. -/
def collapseWsFuel : Nat → List Char → List Char
  | 0, l => l
  | _ + 1, [] => []
  | fuel + 1, c :: cs =>
    if goRegexSpace c then ' ' :: collapseWsFuel fuel (cs.dropWhile goRegexSpace)
    else c :: collapseWsFuel fuel cs

/-- `regexp.MustCompile("\\s+").ReplaceAllString(text, " ")`. -/
def collapseWs (l : List Char) : List Char :=
  collapseWsFuel (l.length + 1) l

/-- `stripHTML(s)`: remove tags, collapse white space, trim. -/
def stripHTML (s : String) : String :=
  goTrimSpace (String.mk (collapseWs (stripTags s.toList)))

/-! ## Collection ranker (`getCollectionPosition`) -/

/-- The anonymous `postInfo` record of `getCollectionPosition`. -/
structure PostInfo where
  slug : String
  date : String
deriving DecidableEq, Inhabited, Repr

/-- The comparison closure of the ranker's `sort.Slice` call:
date ascending. -/
def postInfoLess (p q : PostInfo) : Bool := goStrLt p.date q.date

/-- The ranker's own directory walk: every `.html` file whose
`collection` metadata equals the requested slug contributes its slug
and date metadata, in walk order (read errors are skipped in this
walk; the model's reads always succeed). -/
def collectMembers (fs : GoFS) (collectionSlug : String) : List PostInfo :=
  fs.posts.filterMap (fun e =>
    if goEndsWith e.1 (".html") then
      let lines := goSplitNl e.2
      if extractMeta lines ("collection") == collectionSlug then
        some { slug := goTrimSuf e.1 (".html"), date := extractMeta lines ("date") }
      else none
    else none)

/-- `getCollectionPosition(currentSlug, collectionSlug, currentDate)`:
re-scan the posts directory, filter by collection, sort by date
ascending via `sort.Slice`, return the 1-based position of the first
matching slug (0 when absent) and the total count. -/
def getCollectionPosition (fs : GoFS) (currentSlug collectionSlug currentDate : String) :
    Nat × Nat :=
  let sorted := goSortSlice postInfoLess (collectMembers fs collectionSlug)
  let total := sorted.length
  let index :=
    match sorted.findIdx? (fun p => p.slug == currentSlug) with
    | some i => i + 1
    | none => 0
  (index, total)

/-! ## Content assembler (`loadPost`, `loadCollection`) -/

/-- The reading-time computation of `loadPost`:
`int(math.Max(float64(words)/200, 1.0))`, with the float arithmetic
modeled exactly over the rationals (`float64` is exact on every word
count a file can produce) and `int(...)` as truncation. -/
def goReadTime (content : String) : Nat :=
  let words := (goFields content).length
  (max ((words : ℚ) / 200) 1).floor.toNat

/-- `loadPost(slug)`: read `posts/<slug>.html`, extract metadata and
body, process headings, resolve dates (missing date defaults to
`today`, the formatted current date), resolve collection metadata
best-effort, rank within the collection, and assemble the `Post`
(title falling back to the slug). -/
def loadPost (fs : GoFS) (today : String) (slug : String) : Option Post :=
  match fsFind fs.posts (slug ++ ".html") with
  | none => none
  | some content =>
    let lines := goSplitNl content
    let rawContent := extractContent lines
    let proc := processContentWithTOC rawContent
    let rawDate0 := extractMeta lines ("date")
    let rawDate := if rawDate0 == "" then today else rawDate0
    let formattedDate :=
      match goParseISODate rawDate with
      | some (y, m, d) => goFormatLongDate y m d
      | none => rawDate
    let collectionSlug := extractMeta lines ("collection")
    let cmeta : String × String :=
      if collectionSlug != "" then
        match fsFind fs.collections (collectionSlug ++ ".html") with
        | some ccontent =>
          let clines := goSplitNl ccontent
          (extractMeta clines ("title"), goTrimSpace (extractContent clines))
        | none => ("", "")
      else ("", "")
    let cpos : Nat × Nat :=
      if collectionSlug != "" then getCollectionPosition fs slug collectionSlug rawDate
      else (0, 0)
    let title0 := extractMeta lines ("title")
    some {
      Slug := slug
      Title := if title0 == "" then slug else title0
      Description := extractMeta lines ("description")
      Date := formattedDate
      RawDate := rawDate
      Collection := collectionSlug
      CollectionTitle := cmeta.1
      CollectionDescription := cmeta.2
      CollectionIndex := cpos.1
      CollectionTotal := cpos.2
      Content := proc.1
      ReadTimeInMinutes := goReadTime proc.1
      TOC := proc.2
      PageType := "" }

/-! ## Repository scanner (`loadPosts`) -/

/-- The slugs discovered by the `filepath.WalkDir` loop of
`loadPosts`: every `.html` filename, trimmed, in walk order. -/
def walkPostSlugs (fs : GoFS) : List String :=
  fs.posts.filterMap (fun e =>
    if goEndsWith e.1 (".html") then some (goTrimSuf e.1 (".html")) else none)

/-- The body of the walk: `loadPost` every discovered slug in order,
aborting the whole load on the first failure (fail-fast). -/
def loadSeq (fs : GoFS) (today : String) : List String → Option (List Post)
  | [] => some []
  | s :: rest =>
    match loadPost fs today s with
    | none => none
    | some p =>
      match loadSeq fs today rest with
      | none => none
      | some ps => some (p :: ps)

/-- The post list in discovery order, before sorting. -/
def loadPostsWalk (fs : GoFS) (today : String) : Option (List Post) :=
  loadSeq fs today (walkPostSlugs fs)

/-- The comparison closure of `loadPosts`:
`posts[i].RawDate > posts[j].RawDate` (raw date descending). -/
def postLess (p q : Post) : Bool := goStrLt q.RawDate p.RawDate

/-- `loadPosts()`: walk, load, then `sort.Slice` by raw date
descending. -/
def loadPosts (fs : GoFS) (today : String) : Option (List Post) :=
  (loadPostsWalk fs today).map (goSortSlice postLess)

/-- `loadCollection(slug)`: read `collections/<slug>.html`, extract
title and description, then load the full post repository and keep
the posts whose collection affiliation equals the slug, in repository
order. -/
def loadCollection (fs : GoFS) (today : String) (slug : String) : Option Collection :=
  match fsFind fs.collections (slug ++ ".html") with
  | none => none
  | some content =>
    let lines := goSplitNl content
    let description := goTrimSpace (extractContent lines)
    match loadPosts fs today with
    | none => none
    | some posts =>
      some {
        Slug := slug
        Title := extractMeta lines ("title")
        Description := description
        DescriptionText := stripHTML description
        Posts := posts.foldl (fun acc p => if p.Collection == slug then acc ++ [p] else acc) []
        PageType := "" }

/-! ## Feed builder (`buildRSSFeed` / `handleRSS` item loop) -/

/-- The publish-date computation of the feed builders: parse the raw
date with layout `2006-01-02` and format `time.RFC1123Z` on success,
keep the empty string on failure (the error is discarded). -/
def rssPubDate (raw : String) : String :=
  match goParseISODate raw with
  | some (y, m, d) => goFormatRFC1123Z y m d
  | none => ""

/-- The loop body shared by `buildRSSFeed` and `handleRSS`: one item
per post, description falling back to the body, link and GUID both
`baseURL + "/post/" + slug`. -/
def rssItemOf (baseURL : String) (post : Post) : Item :=
  let pubDate := rssPubDate post.RawDate
  let description := if post.Description == "" then post.Content else post.Description
  { Title := post.Title
    Link := baseURL ++ "/post/" ++ post.Slug
    Description := description
    PubDate := pubDate
    GUID := baseURL ++ "/post/" ++ post.Slug }

/-- The item loop of `buildRSSFeed` / `handleRSS` (`items` starts as
the nil slice and each iteration appends one item). -/
def buildRSSItems (baseURL : String) (posts : List Post) : List Item :=
  posts.foldl (fun items post => items ++ [rssItemOf baseURL post]) []

/-! ## Specification-side definitions

These definitions restate the specification's wording (not the code)
and are compared with the modeled code in the theorems below. -/

/-- The specification's line predicate for `extractContent`: the line
begins with `<!--` and contains at least one of the four reserved key
substrings. -/
def specMetaLine (line : String) : Bool :=
  goStartsWith line ("<!--")
    && (goContains line ("title:") || goContains line ("date:")
      || goContains line ("description:") || goContains line ("collection:"))

/-- The specification's reading of `extractMeta`: the first line with
the exact prefix `<!-- key: ` yields the text between the prefix and
the trailing ` -->` (trimmed), otherwise the empty string. -/
def specExtractMeta (lines : List String) (key : String) : String :=
  match lines.find? (fun line => goStartsWith line ("<!-- " ++ key ++ ": ")) with
  | some line =>
    goTrimSpace (goTrimSuf (goTrimPre line ("<!-- " ++ key ++ ": ")) (" -->"))
  | none => ""

/-- Strict comparison of two elements by a key into a linear order
(the shape shared by the two `sort.Slice` closures of the program). -/
def keyLess {α : Type} {K : Type} [LinearOrder K] (k : α → K) (a b : α) : Bool :=
  decide (k a < k b)

/-- The member set sorted by raw date ascending with ties kept in walk
order: the stable insertion sort under `p.date ≤ q.date` (inserting
each element before the first strictly later element keeps equal dates
in input order). -/
def specSortedAsc (members : List PostInfo) : List PostInfo :=
  List.insertionSort (fun p q => goStrLt q.date p.date = false) members

/-- The specification's reading of the ranker's index: the 1-based
position of the slug in the member set stably sorted by raw date
ascending, or 0 when the slug is not a member. -/
def specAscIndex (members : List PostInfo) (slug : String) : Nat :=
  match (specSortedAsc members).findIdx? (fun p => p.slug == slug) with
  | some i => i + 1
  | none => 0

/-! ## Concrete fixtures for the counterexamples and witnesses -/

/-- One post source file carrying a date and a `c` collection tag. -/
def tiedFile (name date : String) : String × String :=
  (name ++ (".html"),
    ("<!-- date: ") ++ date ++ (" -->\n<!-- collection: c -->\nbody text here"))

/-- A posts directory of thirteen files (walk order `a` … `m`) whose
dates repeat in the cycle `2024-01-01`, `2024-01-02`, `2024-01-03`:
enough files that `sort.Slice` no longer insertion-sorts. -/
def fsTies : GoFS :=
  { posts := [
      tiedFile ("a") ("2024-01-01"), tiedFile ("b") ("2024-01-02"),
      tiedFile ("c") ("2024-01-03"), tiedFile ("d") ("2024-01-01"),
      tiedFile ("e") ("2024-01-02"), tiedFile ("f") ("2024-01-03"),
      tiedFile ("g") ("2024-01-01"), tiedFile ("h") ("2024-01-02"),
      tiedFile ("i") ("2024-01-03"), tiedFile ("j") ("2024-01-01"),
      tiedFile ("k") ("2024-01-02"), tiedFile ("l") ("2024-01-03"),
      tiedFile ("m") ("2024-01-01")],
    collections := [] }

/-- A one-post directory without metadata (witness input for the
metadata-default and reading-time claims). -/
def fsPlain : GoFS :=
  { posts := [(("w.html"), ("hello world body"))], collections := [] }

/-- A directory with one collection file and four posts: two members
of collection `col`, one plain post, and one post pointing at a
missing collection `ghost` (witness input for the membership and
degradation claims). -/
def fsCol : GoFS :=
  { posts := [
      (("p1.html"),
        ("<!-- title: One -->\n<!-- date: 2024-05-01 -->\n<!-- collection: col -->\n<p>alpha</p>")),
      (("p2.html"), ("<!-- date: 2024-04-01 -->\nplain body")),
      (("p3.html"), ("<!-- date: 2024-03-01 -->\n<!-- collection: ghost -->\nbeta")),
      (("p4.html"), ("<!-- date: 2024-06-01 -->\n<!-- collection: col -->\ngamma"))],
    collections := [(("col.html"), ("<!-- title: The Col -->\ndesc"))] }

/-- Three posts of one collection dated as in the specification's
ranking example (witness input for the amended ranking claim). -/
def fs3 : GoFS :=
  { posts := [
      (("q1.html"), ("<!-- date: 2024-01-01 -->\n<!-- collection: c -->\nx")),
      (("q2.html"), ("<!-- date: 2024-02-01 -->\n<!-- collection: c -->\ny")),
      (("q3.html"), ("<!-- date: 2024-03-01 -->\n<!-- collection: c -->\nz"))],
    collections := [] }

/-- Three posts, two sharing a date (witness input for the amended
repository-ordering claim: at most twelve files sort stably). -/
def fsSmall : GoFS :=
  { posts := [
      (("r1.html"), ("<!-- date: 2024-02-02 -->\na")),
      (("r2.html"), ("<!-- date: 2024-03-03 -->\nb")),
      (("r3.html"), ("<!-- date: 2024-02-02 -->\nc"))],
    collections := [] }

/-! ## Theorems -/

/-- The loop test of `extractContent` agrees with the specification's
four-substring predicate. -/
theorem isMetaLine_eq_spec (line : String) : isMetaLine line = specMetaLine line := by
  simp [isMetaLine, specMetaLine, metaKeys, Bool.or_assoc]

/-- C3: for every list of lines, `extractContent` removes exactly the
lines that begin with `<!--` and contain at least one of the four
reserved substrings `title:`, `date:`, `description:`, `collection:`,
and returns the remaining lines unchanged, in order, rejoined with
newlines. -/
theorem extractContent_spec (lines : List String) :
    extractContent lines
      = String.intercalate ("\n") (lines.filter (fun line => !(specMetaLine line))) := by
  unfold extractContent
  congr 1
  induction lines with
  | nil => rfl
  | cons l ls ih =>
    rw [extractContentLines, isMetaLine_eq_spec]
    cases h : specMetaLine l <;> simp [h, ih]

/-- C10: `getCollectionPosition` never consults its `currentDate`
argument; for a fixed directory and slugs the result is the same for
every date passed in. -/
theorem getCollectionPosition_ignores_date (fs : GoFS)
    (currentSlug collectionSlug d1 d2 : String) :
    getCollectionPosition fs currentSlug collectionSlug d1
      = getCollectionPosition fs currentSlug collectionSlug d2 := rfl

/-- `Rat.floor` is the `Int.floor` of the rational. -/
theorem ratFloor_eq_intFloor (q : ℚ) : q.floor = ⌊q⌋ := by
  rw [Rat.floor_def', ← Rat.floor_def]

/-- The reading-time computation truncates to
`max 1 (wordCount / 200)` in natural-number arithmetic. -/
theorem goReadTime_eq (content : String) :
    goReadTime content = max 1 ((goFields content).length / 200) := by
  unfold goReadTime
  generalize (goFields content).length = w
  show ((max ((w : ℚ) / 200) 1).floor).toNat = max 1 (w / 200)
  rw [ratFloor_eq_intFloor]
  rcases le_or_lt 200 w with h | h
  · have hc : ((200 : ℚ)) ≤ (w : ℚ) := by exact_mod_cast h
    have h1 : (1 : ℚ) ≤ (w : ℚ) / 200 := by
      rw [le_div_iff₀ (by norm_num)]
      linarith
    rw [max_eq_left h1]
    have h2 : ⌊((w : ℚ) / 200)⌋ = (w : ℤ) / 200 := by
      have := Rat.floor_natCast_div_natCast w 200
      simpa using this
    rw [h2]
    have h3 : 1 ≤ w / 200 := Nat.one_le_div_iff (by norm_num) |>.mpr h
    rw [max_eq_right h3]
    omega
  · have hc : (w : ℚ) < ((200 : ℚ)) := by exact_mod_cast h
    have h1 : (w : ℚ) / 200 ≤ 1 := by
      rw [div_le_one (by norm_num)]
      linarith
    rw [max_eq_right h1]
    have h3 : w / 200 = 0 := Nat.div_eq_of_lt h
    simp [h3]

/-- C6: the reading time of a loaded post is
`max(1, floor(wordCount / 200))` for the whitespace-split word count
of the rendered body (tags included), hence at least one minute, with
`200`, `401` and `10` words giving `1`, `2` and `1` minutes. -/
theorem loadPost_readTime (fs : GoFS) (today slug : String) (p : Post)
    (h : loadPost fs today slug = some p) :
    p.ReadTimeInMinutes = max 1 ((goFields p.Content).length / 200) ∧
    1 ≤ p.ReadTimeInMinutes ∧
    ((goFields p.Content).length = 200 → p.ReadTimeInMinutes = 1) ∧
    ((goFields p.Content).length = 401 → p.ReadTimeInMinutes = 2) ∧
    ((goFields p.Content).length = 10 → p.ReadTimeInMinutes = 1) := by
  have hrt : p.ReadTimeInMinutes = goReadTime p.Content := by
    unfold loadPost at h
    cases hf : fsFind fs.posts (slug ++ (".html")) with
    | none => rw [hf] at h; cases h
    | some content =>
      rw [hf] at h
      simp only [Option.some.injEq] at h
      subst h
      rfl
  rw [hrt, goReadTime_eq]
  refine ⟨rfl, ?_, ?_, ?_, ?_⟩ <;> intros <;> omega

/-- The item loop is the map of the per-post item builder. -/
theorem buildRSSItems_eq_map (baseURL : String) (posts : List Post) :
    buildRSSItems baseURL posts = posts.map (rssItemOf baseURL) := by
  unfold buildRSSItems
  suffices h : ∀ acc : List Item,
      posts.foldl (fun items post => items ++ [rssItemOf baseURL post]) acc
        = acc ++ posts.map (rssItemOf baseURL) by
    simpa using h []
  induction posts with
  | nil => intro acc; simp
  | cons p ps ih => intro acc; simp [ih]

/-- C9: every feed item's publish date is obtained by parsing the
post's raw date (RFC-1123Z format on success, the empty string on a
parse failure, never an error); `2024-03-05` renders as
`Tue, 05 Mar 2024 00:00:00 +0000` and `unknown` renders empty. -/
theorem rss_pubdate_spec :
    (∀ (baseURL : String) (posts : List Post),
      (buildRSSItems baseURL posts).map Item.PubDate
        = posts.map (fun p => rssPubDate p.RawDate)) ∧
    rssPubDate ("2024-03-05") = ("Tue, 05 Mar 2024 00:00:00 +0000") ∧
    rssPubDate ("unknown") = ("") := by
  refine ⟨?_, by decide, by decide⟩
  intro baseURL posts
  rw [buildRSSItems_eq_map, List.map_map]
  rfl

/-- Every outline entry that one heading pass produces carries that
pass's level. -/
theorem tocPassFuel_levels (tagNum : Char) (level : Nat) :
    ∀ (fuel : Nat) (cs : List Char),
      ∀ item ∈ (tocPassFuel tagNum level fuel cs).2, item.Level = level := by
  intro fuel
  induction fuel with
  | zero => intro cs item h; simp [tocPassFuel] at h
  | succ f ih =>
    intro cs item h
    cases cs with
    | nil => simp [tocPassFuel] at h
    | cons c cs =>
      simp only [tocPassFuel] at h
      split at h
      · split at h
        · simp only [List.mem_cons] at h
          rcases h with h | h
          · rw [h]
          · exact ih _ item h
        · exact ih _ item h
      · exact ih _ item h

/-- C5: the outline of `processContentWithTOC` is in pass order — the
level-2 entries (in document order) precede the level-3 entries — and
on a body whose `<h3>` precedes its `<h2>` the h2 entry still comes
first. -/
theorem processContentWithTOC_pass_order :
    (∀ content : String,
      ((processContentWithTOC content).2).Pairwise (fun a b => a.Level ≤ b.Level)) ∧
    ((processContentWithTOC ("<h3>A</h3>\n<h2>B</h2>")).2).map (fun t => (t.Text, t.Level))
      = [(("B"), 2), (("A"), 3)] ∧
    ((processContentWithTOC ("<h3>A</h3><h2>B</h2><h3>C</h3><h2>D</h2>")).2).map
        (fun t => (t.Text, t.Level))
      = [(("B"), 2), (("D"), 2), (("A"), 3), (("C"), 3)] := by
  refine ⟨?_, by decide, by decide⟩
  intro content
  show (((tocPassFuel ('2') 2 (content.toList.length + 1) content.toList)).2
      ++ ((tocPassFuel ('3') 3 _ _)).2).Pairwise (fun a b => a.Level ≤ b.Level)
  rw [List.pairwise_append]
  refine ⟨?_, ?_, ?_⟩
  · exact List.pairwise_of_forall_mem_list (fun a ha b hb => by
      rw [tocPassFuel_levels ('2') 2 _ _ a ha, tocPassFuel_levels ('2') 2 _ _ b hb])
  · exact List.pairwise_of_forall_mem_list (fun a ha b hb => by
      rw [tocPassFuel_levels ('3') 3 _ _ a ha, tocPassFuel_levels ('3') 3 _ _ b hb])
  · intro a ha b hb
    rw [tocPassFuel_levels ('2') 2 _ _ a ha, tocPassFuel_levels ('3') 3 _ _ b hb]
    omega

/-- C4: `extractMeta` returns the trimmed text of the first line with
the exact `<!-- key: ` prefix (trailing ` -->` trimmed when present)
and the empty string when no line matches; a post without a title
line gets its slug as title. -/
theorem extractMeta_spec :
    (∀ (lines : List String) (key : String),
      extractMeta lines key = specExtractMeta lines key) ∧
    (∀ (fs : GoFS) (today slug content : String) (p : Post),
      fsFind fs.posts (slug ++ (".html")) = some content →
      extractMeta (goSplitNl content) ("title") = ("") →
      loadPost fs today slug = some p →
      p.Title = slug) := by
  constructor
  · intro lines key
    induction lines with
    | nil => rfl
    | cons l ls ih =>
      rw [extractMeta, specExtractMeta, List.find?]
      cases h : goStartsWith l ("<!-- " ++ key ++ ": ") <;>
        simp [h, ih, specExtractMeta]
  · intro fs today slug content p hread htitle hp
    unfold loadPost at hp
    rw [hread] at hp
    simp only [Option.some.injEq] at hp
    subst hp
    simp [htitle]

/-- The member-collecting loop of `loadCollection` is a filter. -/
theorem foldl_member_filter (slug : String) (posts : List Post) :
    ∀ acc : List Post,
      posts.foldl (fun acc p => if p.Collection == slug then acc ++ [p] else acc) acc
        = acc ++ posts.filter (fun p => p.Collection == slug) := by
  induction posts with
  | nil => intro acc; simp
  | cons p ps ih =>
    intro acc
    simp only [List.foldl_cons, List.filter_cons]
    cases h : p.Collection == slug
    · rw [if_neg (by decide), if_neg (by decide)]
      exact ih acc
    · rw [if_pos rfl, if_pos rfl, ih (acc ++ [p])]
      simp

/-- C7: the member post list of a loaded `Collection` is exactly the
subsequence of `loadPosts()` whose collection affiliation equals the
collection's slug, in repository order. -/
theorem loadCollection_members (fs : GoFS) (today slug : String)
    (c : Collection) (ps : List Post)
    (hc : loadCollection fs today slug = some c)
    (hp : loadPosts fs today = some ps) :
    c.Posts = ps.filter (fun p => p.Collection == slug) := by
  unfold loadCollection at hc
  cases hf : fsFind fs.collections (slug ++ (".html")) with
  | none => rw [hf] at hc; cases hc
  | some content =>
    rw [hf, hp] at hc
    simp only [Option.some.injEq] at hc
    subst hc
    show ps.foldl _ [] = _
    rw [foldl_member_filter]
    simp

/-- C8: a post whose collection metadata names an unreadable
collection file still loads; the collection title and description stay
empty while the affiliation slug is preserved, and no error is
propagated. -/
theorem loadPost_missing_collection (fs : GoFS) (today slug content cslug : String)
    (hread : fsFind fs.posts (slug ++ (".html")) = some content)
    (hcol : extractMeta (goSplitNl content) ("collection") = cslug)
    (hne : cslug ≠ (""))
    (hmiss : fsFind fs.collections (cslug ++ (".html")) = none) :
    ∃ p, loadPost fs today slug = some p ∧
      p.Collection = cslug ∧ p.CollectionTitle = ("") ∧ p.CollectionDescription = ("") := by
  unfold loadPost
  rw [hread]
  refine ⟨_, rfl, ?_, ?_, ?_⟩ <;> dsimp only <;> rw [hcol]
  · rw [if_pos (bne_iff_ne.mpr hne), hmiss]
  · rw [if_pos (bne_iff_ne.mpr hne), hmiss]

/-! ### The string comparison model agrees with the order on `String` -/

/-- `listLtChars` decides the lexicographic order of character lists. -/
theorem listLtChars_iff :
    ∀ as bs : List Char, listLtChars as bs = true ↔ List.Lex (fun c1 c2 => c1 < c2) as bs
  | [], [] => by
    rw [show listLtChars [] [] = false from rfl]
    exact ⟨fun h => absurd h Bool.false_ne_true, fun h => nomatch h⟩
  | [], b :: bs => by
    rw [show listLtChars [] (b :: bs) = true from rfl]
    exact ⟨fun _ => List.Lex.nil, fun _ => rfl⟩
  | a :: as, [] => by
    rw [show listLtChars (a :: as) [] = false from rfl]
    exact ⟨fun h => absurd h Bool.false_ne_true, fun h => nomatch h⟩
  | a :: as, b :: bs => by
    rw [show listLtChars (a :: as) (b :: bs)
        = (if a < b then true else if b < a then false else listLtChars as bs) from rfl]
    rcases lt_trichotomy a b with hab | hab | hab
    · rw [if_pos hab]
      exact ⟨fun _ => List.Lex.rel hab, fun _ => rfl⟩
    · subst hab
      rw [if_neg (lt_irrefl a), if_neg (lt_irrefl a)]
      rw [listLtChars_iff as bs]
      constructor
      · exact fun h => List.Lex.cons h
      · intro h
        cases h with
        | cons h => exact h
        | rel h => exact absurd h (lt_irrefl a)
    · rw [if_neg (asymm hab), if_pos hab]
      constructor
      · intro h
        exact absurd h Bool.false_ne_true
      · intro h
        cases h with
        | cons _ => exact absurd hab (lt_irrefl _)
        | rel h => exact absurd hab (asymm h)

/-- `goStrLt` decides `<` on strings. -/
theorem goStrLt_iff (a b : String) : goStrLt a b = true ↔ a < b := by
  rw [String.lt_iff_toList_lt]
  rw [show (a.toList < b.toList) = List.Lex (fun c1 c2 => c1 < c2) a.toList b.toList from rfl]
  exact listLtChars_iff a.toList b.toList

/-- `goStrLt` is the `decide` of the string order. -/
theorem goStrLt_eq_decide (a b : String) : goStrLt a b = decide (a < b) := by
  rw [Bool.eq_iff_iff, goStrLt_iff, decide_eq_true_eq]

/-! ### The insertion sort of `sort.Slice` (ranges of at most 12):
permutation, sortedness and stability -/

section SortProofs

open List

variable {α : Type} {K : Type} [LinearOrder K]

/-- Sinking one element permutes it onto the reversed prefix. -/
theorem goSinkRev_perm (less : α → α → Bool) (x : α) :
    ∀ rev : List α, goSinkRev less x rev ~ x :: rev := by
  intro rev
  induction rev with
  | nil => exact List.Perm.refl _
  | cons y rev ih =>
    rw [goSinkRev]
    by_cases h : less x y = true
    · rw [if_pos h]
      exact (ih.cons y).trans (List.Perm.swap x y rev)
    · rw [if_neg h]

/-- Sinking preserves the sortedness of the reversed prefix
(descending keys along the reversed list). -/
theorem goSinkRev_pairwise (k : α → K) (x : α) :
    ∀ rev : List α, rev.Pairwise (fun a b => k b ≤ k a) →
      (goSinkRev (keyLess k) x rev).Pairwise (fun a b => k b ≤ k a) := by
  intro rev
  induction rev with
  | nil => intro _; simp [goSinkRev]
  | cons y rev ih =>
    intro hrev
    rw [goSinkRev]
    rcases List.pairwise_cons.mp hrev with ⟨hy, htail⟩
    by_cases h : keyLess k x y = true
    · rw [if_pos h]
      have hxy : k x < k y := by
        have := of_decide_eq_true h
        exact this
      refine List.pairwise_cons.mpr ⟨?_, ih htail⟩
      intro z hz
      have hz2 : z ∈ x :: rev := (goSinkRev_perm (keyLess k) x rev).mem_iff.mp hz
      rcases List.mem_cons.mp hz2 with rfl | hz3
      · exact le_of_lt hxy
      · exact hy z hz3
    · rw [if_neg h]
      have hyx : k y ≤ k x := by
        simp only [Bool.not_eq_true] at h
        exact le_of_not_lt (of_decide_eq_false h)
      refine List.pairwise_cons.mpr ⟨?_, hrev⟩
      intro z hz
      rcases List.mem_cons.mp hz with rfl | hz2
      · exact hyx
      · exact le_trans (hy z hz2) hyx

/-- Sinking into a sorted reversed prefix puts the new element before
its ties: filtering any key class commutes as stability demands. -/
theorem goSinkRev_filter (k : α → K) (x : α) (d : K) :
    ∀ rev : List α, rev.Pairwise (fun a b => k b ≤ k a) →
      (goSinkRev (keyLess k) x rev).filter (fun a => decide (k a = d))
        = (if k x = d then [x] else []) ++ rev.filter (fun a => decide (k a = d)) := by
  intro rev
  induction rev with
  | nil =>
    intro _
    by_cases hx : k x = d <;> simp [goSinkRev, hx]
  | cons y rev ih =>
    intro hrev
    rcases List.pairwise_cons.mp hrev with ⟨_, htail⟩
    rw [goSinkRev]
    by_cases h : keyLess k x y = true
    · rw [if_pos h]
      have hxy : k x < k y := of_decide_eq_true h
      rw [List.filter_cons, ih htail]
      by_cases hy : k y = d
      · have hx : ¬ k x = d := fun hx => absurd (hx ▸ hxy) (hy ▸ lt_irrefl d)
        simp [hx, hy]
      · by_cases hx : k x = d <;> simp [hx, hy]
    · rw [if_neg h]
      by_cases hx : k x = d <;> simp [List.filter_cons, hx]

/-- The insertion-sort fold permutes the prefix and the remainder. -/
theorem goInsertionSortAux_perm (less : α → α → Bool) :
    ∀ (l rev : List α), goInsertionSortAux less rev l ~ rev.reverse ++ l
  | [], rev => by simp [goInsertionSortAux]
  | x :: rest, rev => by
    rw [goInsertionSortAux]
    refine (goInsertionSortAux_perm less rest (goSinkRev less x rev)).trans ?_
    have h1 : (goSinkRev less x rev).reverse ~ x :: rev.reverse := by
      refine (List.reverse_perm _).trans ?_
      exact (goSinkRev_perm less x rev).trans (List.Perm.cons x (List.reverse_perm rev).symm)
    refine (h1.append_right rest).trans ?_
    exact (List.perm_middle).symm

/-- The insertion-sort fold keeps the reversed prefix sorted and
returns an ascending list. -/
theorem goInsertionSortAux_pairwise (k : α → K) :
    ∀ (l rev : List α), rev.Pairwise (fun a b => k b ≤ k a) →
      (goInsertionSortAux (keyLess k) rev l).Pairwise (fun a b => k a ≤ k b)
  | [], rev, h => by
    rw [goInsertionSortAux]
    exact (List.pairwise_reverse).mpr h
  | x :: rest, rev, h => by
    rw [goInsertionSortAux]
    exact goInsertionSortAux_pairwise k rest _ (goSinkRev_pairwise k x rev h)

/-- The insertion-sort fold is stable: the subsequence of any one key
class is the reversed prefix's class followed by the remainder's. -/
theorem goInsertionSortAux_filter (k : α → K) (d : K) :
    ∀ (l rev : List α), rev.Pairwise (fun a b => k b ≤ k a) →
      (goInsertionSortAux (keyLess k) rev l).filter (fun a => decide (k a = d))
        = rev.reverse.filter (fun a => decide (k a = d))
          ++ l.filter (fun a => decide (k a = d))
  | [], rev, h => by simp [goInsertionSortAux]
  | x :: rest, rev, h => by
    rw [goInsertionSortAux]
    rw [goInsertionSortAux_filter k d rest _ (goSinkRev_pairwise k x rev h)]
    have hs := goSinkRev_filter k x d rev h
    have hrev : (goSinkRev (keyLess k) x rev).reverse.filter (fun a => decide (k a = d))
        = rev.reverse.filter (fun a => decide (k a = d))
          ++ (if k x = d then [x] else []) := by
      rw [List.filter_reverse, hs, List.reverse_append, ← List.filter_reverse]
      congr 1
      by_cases hx : k x = d <;> simp [hx]
    rw [hrev, List.filter_cons, List.append_assoc]
    by_cases hx : k x = d <;> simp [hx]

/-- Go's `insertionSort` is a permutation of its input. -/
theorem goInsertionSort_perm (less : α → α → Bool) (l : List α) :
    goInsertionSort less l ~ l := by
  simpa using goInsertionSortAux_perm less l []

/-- Go's `insertionSort` sorts ascending by key. -/
theorem goInsertionSort_pairwise (k : α → K) (l : List α) :
    (goInsertionSort (keyLess k) l).Pairwise (fun a b => k a ≤ k b) :=
  goInsertionSortAux_pairwise k l [] (List.Pairwise.nil)

/-- Go's `insertionSort` is stable: each key class keeps input order. -/
theorem goInsertionSort_filter (k : α → K) (d : K) (l : List α) :
    (goInsertionSort (keyLess k) l).filter (fun a => decide (k a = d))
      = l.filter (fun a => decide (k a = d)) := by
  simpa using goInsertionSortAux_filter k d l [] (List.Pairwise.nil)

/-- A sorted permutation with the same key classes is unique: two
lists that are permutations of each other, both ascending by key, and
with equal filters on every key class, are equal (stable sorting
determines the output). -/
theorem sorted_stable_unique (k : α → K) :
    ∀ (S1 S2 : List α), S1 ~ S2 →
      S1.Pairwise (fun a b => k a ≤ k b) → S2.Pairwise (fun a b => k a ≤ k b) →
      (∀ d : K, S1.filter (fun a => decide (k a = d))
        = S2.filter (fun a => decide (k a = d))) →
      S1 = S2
  | [], S2, hperm, _, _, _ => (hperm.nil_eq).symm ▸ rfl
  | a :: t1, [], hperm, _, _, _ => absurd hperm.symm.nil_eq (by simp)
  | a :: t1, b :: t2, hperm, hs1, hs2, hf => by
    have hab : k a = k b := by
      have hbmem : b ∈ a :: t1 := hperm.symm.subset (List.mem_cons_self b t2)
      have hamem : a ∈ b :: t2 := hperm.subset (List.mem_cons_self a t1)
      have h1 : k a ≤ k b := by
        rcases List.mem_cons.mp hbmem with rfl | hb
        · exact le_refl _
        · exact (List.pairwise_cons.mp hs1).1 b hb
      have h2 : k b ≤ k a := by
        rcases List.mem_cons.mp hamem with rfl | ha
        · exact le_refl _
        · exact (List.pairwise_cons.mp hs2).1 a ha
      exact le_antisymm h1 h2
    have hhead : a = b ∧ t1.filter (fun x => decide (k x = k a))
        = t2.filter (fun x => decide (k x = k a)) := by
      have := hf (k a)
      rw [List.filter_cons, List.filter_cons] at this
      rw [if_pos (by simp), if_pos (by simp [hab])] at this
      exact ⟨List.head_eq_of_cons_eq this, List.tail_eq_of_cons_eq this⟩
    rcases hhead with ⟨rfl, hteq⟩
    have htail : t1 = t2 := by
      refine sorted_stable_unique k t1 t2 (hperm.cons_inv) hs1.of_cons hs2.of_cons ?_
      intro d
      by_cases hd : k a = d
      · subst hd
        exact hteq
      · have := hf d
        rw [List.filter_cons, List.filter_cons] at this
        rw [if_neg (by simp [hd]), if_neg (by simp [hd])] at this
        exact this
    rw [htail]

/-- `List.orderedInsert` under a key-induced relation inserts the new
element before its ties: each key class's filter gains it up front. -/
theorem orderedInsert_filter (k : α → K) (r : α → α → Prop) [DecidableRel r]
    (hr : ∀ a b, r a b ↔ k a ≤ k b) (x : α) (d : K) :
    ∀ S : List α, S.Pairwise (fun a b => k a ≤ k b) →
      (S.orderedInsert r x).filter (fun a => decide (k a = d))
        = (if k x = d then x :: S.filter (fun a => decide (k a = d))
            else S.filter (fun a => decide (k a = d)))
  | [], _ => by by_cases hx : k x = d <;> simp [List.orderedInsert, hx]
  | y :: S, hS => by
    rw [List.orderedInsert]
    by_cases h : r x y
    · rw [if_pos h]
      by_cases hx : k x = d <;> simp [List.filter_cons, hx]
    · rw [if_neg h]
      have hyx : k y < k x := lt_of_not_le (fun hle => h ((hr x y).mpr hle))
      rw [List.filter_cons, orderedInsert_filter k r hr x d S hS.of_cons]
      by_cases hx : k x = d
      · have hy : ¬ (k y = d) := by
          intro hy
          rw [hy, ← hx] at hyx
          exact absurd hyx (lt_irrefl _)
        simp [List.filter_cons, hx, hy]
      · by_cases hy : k y = d <;> simp [List.filter_cons, hx, hy]

/-- `List.insertionSort` under a key-induced relation sorts ascending
by key. -/
theorem insertionSort_pairwise (k : α → K) (r : α → α → Prop) [DecidableRel r]
    (hr : ∀ a b, r a b ↔ k a ≤ k b) (l : List α) :
    (List.insertionSort r l).Pairwise (fun a b => k a ≤ k b) := by
  haveI : IsTotal α r := ⟨fun a b => by
    rcases le_total (k a) (k b) with h | h
    · exact Or.inl ((hr a b).mpr h)
    · exact Or.inr ((hr b a).mpr h)⟩
  haveI : IsTrans α r := ⟨fun a b c hab hbc =>
    (hr a c).mpr (le_trans ((hr a b).mp hab) ((hr b c).mp hbc))⟩
  exact (List.sorted_insertionSort r l).imp (fun h => (hr _ _).mp h)

/-- `List.insertionSort` under a key-induced relation is stable. -/
theorem insertionSort_filter (k : α → K) (r : α → α → Prop) [DecidableRel r]
    (hr : ∀ a b, r a b ↔ k a ≤ k b) (d : K) :
    ∀ l : List α, (List.insertionSort r l).filter (fun a => decide (k a = d))
      = l.filter (fun a => decide (k a = d))
  | [] => rfl
  | x :: l => by
    rw [List.insertionSort]
    rw [orderedInsert_filter k r hr x d _ (insertionSort_pairwise k r hr l)]
    rw [insertionSort_filter k r hr d l, List.filter_cons]
    by_cases hx : k x = d <;> simp [hx]

/-- Go's small-range insertion sort and the specification's stable
insertion sort agree: both are sorted, stable permutations, and such a
list is unique. -/
theorem goInsertionSort_eq_insertionSort (k : α → K) (r : α → α → Prop) [DecidableRel r]
    (hr : ∀ a b, r a b ↔ k a ≤ k b) (l : List α) :
    goInsertionSort (keyLess k) l = List.insertionSort r l := by
  apply sorted_stable_unique k
  · exact (goInsertionSort_perm _ l).trans (List.perm_insertionSort r l).symm
  · exact goInsertionSort_pairwise k l
  · exact insertionSort_pairwise k r hr l
  · intro d
    rw [goInsertionSort_filter k d l, insertionSort_filter k r hr d l]

/-- On at most twelve elements, `sort.Slice` is exactly the insertion
sort (the first branch of `pdqsort_func`). -/
theorem goSortSlice_of_le_twelve [Inhabited α] (less : α → α → Bool) (l : List α)
    (h : l.length ≤ 12) :
    goSortSlice less l = goInsertionSort less l := by
  unfold goSortSlice
  rw [goPdqsort]
  rw [if_pos (by simpa using h)]
  unfold goInsertionSortRange
  rw [Array.toList_toArray, Array.toList_toArray]
  simp only [List.drop_zero, Nat.sub_zero, List.take_length, List.take_zero, Nat.zero_add,
    List.drop_length, List.nil_append, List.append_nil]

/-! ### `pdqsort` only permutes: every mutation of the array is a
swap or an in-range insertion sort -/

/-- Pulling the element at an index to the front of its replacement is
a permutation. -/
theorem get_cons_set_perm (a : α) :
    ∀ (t : List α) (m : Nat) (hm : m < t.length),
      t.get ⟨m, hm⟩ :: t.set m a ~ a :: t
  | b :: s, 0, _ => List.Perm.swap a b s
  | b :: s, m + 1, hm => by
    show s.get ⟨m, _⟩ :: b :: s.set m a ~ a :: b :: s
    refine (List.Perm.swap b (s.get ⟨m, by simpa using hm⟩) (s.set m a)).trans ?_
    exact (List.Perm.cons b (get_cons_set_perm a s m (by simpa using hm))).trans
      (List.Perm.swap a b s)

/-- Exchanging two positions by a double `set` is a permutation. -/
theorem set_set_swap_perm :
    ∀ (l : List α) (i j : Nat) (hi : i < l.length) (hj : j < l.length),
      (l.set i (l.get ⟨j, hj⟩)).set j (l.get ⟨i, hi⟩) ~ l
  | a :: t, 0, 0, _, _ => by simp
  | a :: t, 0, m + 1, hi, hj => by
    show t.get ⟨m, _⟩ :: t.set m a ~ a :: t
    exact get_cons_set_perm a t m (by simpa using hj)
  | a :: t, n + 1, 0, hi, hj => by
    show t.get ⟨n, _⟩ :: t.set n a ~ a :: t
    exact get_cons_set_perm a t n (by simpa using hi)
  | a :: t, n + 1, m + 1, hi, hj => by
    show a :: ((t.set n (t.get ⟨m, _⟩)).set m (t.get ⟨n, _⟩)) ~ a :: t
    exact List.Perm.cons a (set_set_swap_perm t n m (by simpa using hi) (by simpa using hj))

/-- A modeled `Swap` permutes the array's elements. -/
theorem goSwap_perm [Inhabited α] (arr : Array α) (i j : Nat) :
    (goSwap arr i j).toList ~ arr.toList := by
  unfold goSwap
  split
  · rename_i h
    rw [Array.toList_swap]
    exact set_set_swap_perm arr.toList i j (by simpa using h.1) (by simpa using h.2)
  · exact List.Perm.refl _

/-- `reverseRange` permutes. -/
theorem goReverseLoop_perm [Inhabited α] :
    ∀ (fuel : Nat) (arr : Array α) (i j : Nat),
      (goReverseLoop fuel arr i j).toList ~ arr.toList
  | 0, arr, _, _ => List.Perm.refl _
  | fuel + 1, arr, i, j => by
    rw [goReverseLoop]
    split
    · exact (goReverseLoop_perm fuel _ _ _).trans (goSwap_perm arr i j)
    · exact List.Perm.refl _

/-- `partition_func`'s main loop permutes. -/
theorem goPartitionLoop_perm [Inhabited α] (less : α → α → Bool) (a fa : Nat) :
    ∀ (fuel : Nat) (arr : Array α) (i j : Nat),
      (goPartitionLoop less a fa fuel arr i j).1.toList ~ arr.toList
  | 0, arr, _, _ => List.Perm.refl _
  | fuel + 1, arr, i, j => by
    rw [goPartitionLoop]
    split
    · exact List.Perm.refl _
    · exact (goPartitionLoop_perm less a fa fuel _ _ _).trans (goSwap_perm arr _ _)

/-- `partition_func` permutes. -/
theorem goPartition_perm [Inhabited α] (less : α → α → Bool) (arr : Array α)
    (a b pivot : Nat) : (goPartition less arr a b pivot).1.toList ~ arr.toList := by
  unfold goPartition
  dsimp only
  split
  · exact (goSwap_perm _ _ _).trans (goSwap_perm arr a pivot)
  · refine (goSwap_perm _ _ _).trans ?_
    refine (goPartitionLoop_perm less a _ _ _ _ _).trans ?_
    exact (goSwap_perm _ _ _).trans (goSwap_perm arr a pivot)

/-- `partitionEqual_func`'s loop permutes. -/
theorem goPartitionEqualLoop_perm [Inhabited α] (less : α → α → Bool) (a fa : Nat) :
    ∀ (fuel : Nat) (arr : Array α) (i j : Nat),
      (goPartitionEqualLoop less a fa fuel arr i j).1.toList ~ arr.toList
  | 0, arr, _, _ => List.Perm.refl _
  | fuel + 1, arr, i, j => by
    rw [goPartitionEqualLoop]
    split
    · exact List.Perm.refl _
    · exact (goPartitionEqualLoop_perm less a fa fuel _ _ _).trans (goSwap_perm arr _ _)

/-- `partitionEqual_func` permutes. -/
theorem goPartitionEqual_perm [Inhabited α] (less : α → α → Bool) (arr : Array α)
    (a b pivot : Nat) : (goPartitionEqual less arr a b pivot).1.toList ~ arr.toList := by
  unfold goPartitionEqual
  exact (goPartitionEqualLoop_perm less a _ _ _ _ _).trans (goSwap_perm arr a pivot)

/-- The shift loops of `partialInsertionSort_func` permute. -/
theorem goShiftLeft_perm [Inhabited α] (less : α → α → Bool) :
    ∀ (fuel : Nat) (arr : Array α) (j : Nat),
      (goShiftLeft less fuel arr j).toList ~ arr.toList
  | 0, arr, _ => List.Perm.refl _
  | fuel + 1, arr, j => by
    rw [goShiftLeft]
    split
    · exact (goShiftLeft_perm less fuel _ _).trans (goSwap_perm arr _ _)
    · exact List.Perm.refl _

/-- The right shift loop of `partialInsertionSort_func` permutes. -/
theorem goShiftRight_perm [Inhabited α] (less : α → α → Bool) (b : Nat) :
    ∀ (fuel : Nat) (arr : Array α) (j : Nat),
      (goShiftRight less b fuel arr j).toList ~ arr.toList
  | 0, arr, _ => List.Perm.refl _
  | fuel + 1, arr, j => by
    rw [goShiftRight]
    split
    · exact (goShiftRight_perm less b fuel _ _).trans (goSwap_perm arr _ _)
    · exact List.Perm.refl _

/-- `partialInsertionSort_func` permutes. -/
theorem goAlmostSortedLoop_perm [Inhabited α] (less : α → α → Bool) (a b : Nat) :
    ∀ (step : Nat) (arr : Array α) (i : Nat),
      (goAlmostSortedLoop less a b step arr i).1.toList ~ arr.toList
  | 0, arr, _ => List.Perm.refl _
  | step + 1, arr, i => by
    rw [goAlmostSortedLoop]
    dsimp only
    generalize goSortedScan less arr b (arr.size + 2) i = i2
    split
    · exact List.Perm.refl _
    · split
      · exact List.Perm.refl _
      · refine (goAlmostSortedLoop_perm less a b step _ _).trans ?_
        refine List.Perm.trans ?_ (goSwap_perm arr i2 (i2 - 1))
        by_cases h3 : 2 ≤ i2 - a <;> by_cases h4 : 2 ≤ b - i2 <;>
          simp only [h3, h4, if_true, if_false, if_pos, if_neg, not_false_iff, not_true]
        · exact (goShiftRight_perm less b _ _ _).trans (goShiftLeft_perm less _ _ _)
        · exact goShiftLeft_perm less _ _ _
        · exact goShiftRight_perm less b _ _ _
        · exact List.Perm.refl _

/-- `siftDown_func` permutes. -/
theorem goSiftDown_perm [Inhabited α] (less : α → α → Bool) (first hi : Nat) :
    ∀ (fuel : Nat) (arr : Array α) (root : Nat),
      (goSiftDown less first hi fuel arr root).toList ~ arr.toList
  | 0, arr, _ => List.Perm.refl _
  | fuel + 1, arr, root => by
    rw [goSiftDown]
    dsimp only
    split
    · exact List.Perm.refl _
    · split <;> split
      · exact List.Perm.refl _
      · exact (goSiftDown_perm less first hi fuel _ _).trans (goSwap_perm arr _ _)
      · exact List.Perm.refl _
      · exact (goSiftDown_perm less first hi fuel _ _).trans (goSwap_perm arr _ _)

/-- The heap construction loop permutes. -/
theorem goHeapifyLoop_perm [Inhabited α] (less : α → α → Bool) (first hi : Nat) :
    ∀ (kk : Nat) (arr : Array α), (goHeapifyLoop less first hi kk arr).toList ~ arr.toList
  | 0, arr => List.Perm.refl _
  | kk + 1, arr => by
    rw [goHeapifyLoop]
    exact (goHeapifyLoop_perm less first hi kk _).trans (goSiftDown_perm less first hi _ arr kk)

/-- The heap pop loop permutes. -/
theorem goHeapPopLoop_perm [Inhabited α] (less : α → α → Bool) (first : Nat) :
    ∀ (kk : Nat) (arr : Array α), (goHeapPopLoop less first kk arr).toList ~ arr.toList
  | 0, arr => List.Perm.refl _
  | kk + 1, arr => by
    rw [goHeapPopLoop]
    refine (goHeapPopLoop_perm less first kk _).trans ?_
    exact (goSiftDown_perm less first kk _ _ 0).trans (goSwap_perm arr first (first + kk))

/-- `heapSort_func` permutes. -/
theorem goHeapSort_perm [Inhabited α] (less : α → α → Bool) (arr : Array α) (a b : Nat) :
    (goHeapSort less arr a b).toList ~ arr.toList := by
  unfold goHeapSort
  exact (goHeapPopLoop_perm less a _ _).trans (goHeapifyLoop_perm less a _ _ arr)

/-- `breakPatterns_func` permutes. -/
theorem goBreakPatterns_perm [Inhabited α] (arr : Array α) (a b : Nat) :
    (goBreakPatterns arr a b).toList ~ arr.toList := by
  unfold goBreakPatterns
  dsimp only
  split
  · exact ((goSwap_perm _ _ _).trans (goSwap_perm _ _ _)).trans (goSwap_perm arr _ _)
  · exact List.Perm.refl _

/-- The decomposition of a list into the frame around a sorted range. -/
theorem take_seg_drop_eq (l : List α) (a n : Nat) :
    l = l.take a ++ ((l.drop a).take n) ++ l.drop (a + ((l.drop a).take n).length) := by
  have hdd : (l.drop a).drop ((l.drop a).take n).length
      = l.drop (a + ((l.drop a).take n).length) := by
    rw [List.drop_drop, Nat.add_comm]
  conv_lhs => rw [← List.take_append_drop a l]
  rw [List.append_assoc]
  congr 1
  rw [← hdd]
  generalize l.drop a = xs
  have h1 : xs.take n = xs.take ((xs.take n).length) := by
    rcases le_or_lt xs.length n with h | h
    · rw [List.take_of_length_le h]
      rw [List.take_of_length_le (by simp)]
    · have hl : (xs.take n).length = n := by
        rw [List.length_take]
        exact min_eq_left (le_of_lt h)
      rw [hl]
  conv_lhs => rw [← List.take_append_drop ((xs.take n).length) xs]
  congr 1
  exact h1.symm

/-- Insertion-sorting a range permutes the whole array. -/
theorem goInsertionSortRange_perm [Inhabited α] (less : α → α → Bool) (arr : Array α)
    (a b : Nat) : (goInsertionSortRange less arr a b).toList ~ arr.toList := by
  unfold goInsertionSortRange
  dsimp only
  rw [Array.toList_toArray]
  conv_rhs => rw [take_seg_drop_eq arr.toList a (b - a)]
  exact List.Perm.append (List.Perm.append (List.Perm.refl _) (goInsertionSort_perm less _))
    (List.Perm.refl _)

/-- The staged `breakPatterns` step permutes. -/
theorem goPdqStage1_perm [Inhabited α] (arr : Array α) (a b limit : Nat) (wb : Bool) :
    (goPdqStage1 arr a b limit wb).1.toList ~ arr.toList := by
  unfold goPdqStage1
  split
  · exact goBreakPatterns_perm arr a b
  · exact List.Perm.refl _

/-- The staged pivot-choice step permutes. -/
theorem goPdqStage2_perm [Inhabited α] (less : α → α → Bool) (a b : Nat)
    (st : Array α × Nat) : (goPdqStage2 less a b st).1.toList ~ st.1.toList := by
  unfold goPdqStage2
  rcases goChoosePivot less st.1 a b with ⟨pivot0, hint0⟩
  dsimp only
  split
  · exact goReverseLoop_perm _ _ _ _
  · exact List.Perm.refl _

/-- The staged `partialInsertionSort` step permutes. -/
theorem goPdqStage3_perm [Inhabited α] (less : α → α → Bool) (a b : Nat)
    (wb wp : Bool) (st : Array α × Nat × Nat × SortHint) :
    (goPdqStage3 less a b wb wp st).1.toList ~ st.1.toList := by
  unfold goPdqStage3
  split
  · rcases hpr : goAlmostSorted less st.1 a b with ⟨arr2, done⟩
    have : arr2.toList ~ st.1.toList := by
      have h0 := goAlmostSortedLoop_perm less a b 5 st.1 (a + 1)
      rw [show goAlmostSortedLoop less a b 5 st.1 (a + 1) = goAlmostSorted less st.1 a b
        from rfl, hpr] at h0
      exact h0
    exact this
  · exact List.Perm.refl _

/-- `pdqsort_func` permutes the array for every input. -/
theorem goPdqsort_perm [Inhabited α] (less : α → α → Bool) :
    ∀ (fuel : Nat) (arr : Array α) (a b limit : Nat) (wb wp : Bool),
      (goPdqsort less fuel arr a b limit wb wp).toList ~ arr.toList
  | 0, arr, _, _, _, _, _ => List.Perm.refl _
  | fuel + 1, arr, a, b, limit, wb, wp => by
    rw [goPdqsort]
    split
    · exact goInsertionSortRange_perm less arr a b
    · split
      · exact goHeapSort_perm less arr a b
      · rcases hst : goPdqStage3 less a b wb wp
            (goPdqStage2 less a b (goPdqStage1 arr a b limit wb)) with
          ⟨arr3, limit1, pivot, done⟩
        have harr3 : arr3.toList ~ arr.toList := by
          have h3 := goPdqStage3_perm less a b wb wp
            (goPdqStage2 less a b (goPdqStage1 arr a b limit wb))
          rw [hst] at h3
          exact (h3.trans (goPdqStage2_perm less a b _)).trans
            (goPdqStage1_perm arr a b limit wb)
        dsimp only
        split
        · exact harr3
        · split
          · rcases hpe : goPartitionEqual less arr3 a b pivot with ⟨arr4, mid⟩
            have h4 : arr4.toList ~ arr3.toList := by
              have := goPartitionEqual_perm less arr3 a b pivot
              rw [hpe] at this
              exact this
            exact ((goPdqsort_perm less fuel arr4 mid b limit1 wb wp).trans h4).trans harr3
          · rcases hpr : goPartition less arr3 a b pivot with ⟨arr4, mid, ap⟩
            have h4 : arr4.toList ~ arr.toList := by
              have := goPartition_perm less arr3 a b pivot
              rw [hpr] at this
              exact this.trans harr3
            split
            · exact ((goPdqsort_perm less fuel _ _ _ _ _ _).trans
                (goPdqsort_perm less fuel arr4 a mid limit1 true true)).trans h4
            · exact ((goPdqsort_perm less fuel _ _ _ _ _ _).trans
                (goPdqsort_perm less fuel arr4 (mid + 1) b limit1 true true)).trans h4

/-- `sort.Slice` returns a permutation of its input, for every input. -/
theorem goSortSlice_perm [Inhabited α] (less : α → α → Bool) (l : List α) :
    goSortSlice less l ~ l := by
  unfold goSortSlice
  have := goPdqsort_perm less (l.length + 1) l.toArray 0 l.length (bitsLen l.length) true true
  rwa [Array.toList_toArray] at this

/-- `sort.Slice` preserves the length. -/
theorem goSortSlice_length [Inhabited α] (less : α → α → Bool) (l : List α) :
    (goSortSlice less l).length = l.length :=
  (goSortSlice_perm less l).length_eq

end SortProofs

/-! ### The repository ordering (C1) and the collection ranking (C2) -/

/-- The comparison closure of `loadPosts` is the key comparison by raw
date under the dual (descending) order on strings. -/
theorem postLess_eq_keyLess :
    postLess = @keyLess Post String (inferInstanceAs (LinearOrder (OrderDual String)))
      (fun p => p.RawDate) := by
  funext p q
  rw [show postLess p q = goStrLt q.RawDate p.RawDate from rfl, goStrLt_eq_decide]
  exact decide_eq_decide.mpr Iff.rfl

/-- The comparison closure of `getCollectionPosition` is the key
comparison by date under the ascending order on strings. -/
theorem postInfoLess_eq_keyLess :
    postInfoLess = keyLess (fun p : PostInfo => p.date) := by
  funext p q
  rw [show postInfoLess p q = goStrLt p.date q.date from rfl, goStrLt_eq_decide]
  exact decide_eq_decide.mpr Iff.rfl

/-- The ascending relation of the specification's stable sort is the
key order by date. -/
theorem dateLe_iff (a b : PostInfo) :
    (goStrLt b.date a.date = false) ↔ a.date ≤ b.date := by
  constructor
  · intro h
    refine le_of_not_lt (fun hlt => ?_)
    rw [(goStrLt_iff _ _).mpr hlt] at h
    cases h
  · intro h
    cases hgo : goStrLt b.date a.date
    · rfl
    · exact absurd ((goStrLt_iff _ _).mp hgo) (not_lt_of_le h)

/-- C2 (amended): `getCollectionPosition` returns as `total` the
number of post files whose collection metadata equals the requested
collection; and whenever the collection has at most twelve member
posts, the returned pair is exactly (1-based position of the slug in
the member set stably sorted by raw date ascending — 0 when absent —,
member count).  For thirteen or more members `sort.Slice` may reorder
equal dates, and the index can differ from the stable position. -/
theorem getCollectionPosition_spec (fs : GoFS)
    (currentSlug collectionSlug currentDate : String) :
    (getCollectionPosition fs currentSlug collectionSlug currentDate).2
      = (collectMembers fs collectionSlug).length ∧
    ((collectMembers fs collectionSlug).length ≤ 12 →
      getCollectionPosition fs currentSlug collectionSlug currentDate
        = (specAscIndex (collectMembers fs collectionSlug) currentSlug,
            (collectMembers fs collectionSlug).length)) := by
  constructor
  · exact goSortSlice_length postInfoLess (collectMembers fs collectionSlug)
  · intro h
    have hbridge : goSortSlice postInfoLess (collectMembers fs collectionSlug)
        = specSortedAsc (collectMembers fs collectionSlug) := by
      rw [goSortSlice_of_le_twelve postInfoLess _ h, postInfoLess_eq_keyLess]
      exact goInsertionSort_eq_insertionSort (fun p : PostInfo => p.date)
        (fun p q => goStrLt q.date p.date = false) dateLe_iff _
    unfold getCollectionPosition specAscIndex
    rw [hbridge]
    have hlen : (specSortedAsc (collectMembers fs collectionSlug)).length
        = (collectMembers fs collectionSlug).length :=
      (List.perm_insertionSort _ _).length_eq
    dsimp only
    rw [hlen]

/-- C2 fails as stated on a thirteen-member collection with equal
dates: the ranker reports index 3 for the member `a`, although the
1-based position of `a` in the member set sorted by raw date ascending
(stably, ties in walk order) is 1 — `sort.Slice` reorders the tied
dates once the collection exceeds twelve members. -/
theorem getCollectionPosition_counterexample :
    getCollectionPosition fsTies ("a") ("c") ("2024-01-01") = (3, 13) ∧
    specAscIndex (collectMembers fsTies ("c")) ("a") = 1 ∧
    (collectMembers fsTies ("c")).map PostInfo.slug
      = [("a"), ("b"), ("c"), ("d"), ("e"), ("f"), ("g"), ("h"), ("i"), ("j"), ("k"),
          ("l"), ("m")] :=
  ⟨by decide, by decide, by decide⟩

/-- Witness: the amended ranking claim at the specification's own
example — three posts dated `2024-01-01`, `2024-02-01`, `2024-03-01`
in one collection rank the middle post at index 2 of 3. -/
theorem getCollectionPosition_spec_witness :
    (collectMembers fs3 ("c")).length ≤ 12 ∧
    getCollectionPosition fs3 ("q2") ("c") ("2024-02-01") = (2, 3) := by
  constructor
  · decide
  · have h := (getCollectionPosition_spec fs3 ("q2") ("c") ("2024-02-01")).2 (by decide)
    rw [h]
    decide

/-- C1 (amended): `loadPosts` returns a permutation of the posts in
discovery order; on a repository of at most twelve post files the
result is sorted by raw date descending and any two posts with equal
raw dates keep their discovery order.  (With thirteen or more files
`sort.Slice` no longer guarantees the tie order; see the
counterexample.) -/
theorem loadPosts_sorted_stable (fs : GoFS) (today : String) (ds ps : List Post)
    (hw : loadPostsWalk fs today = some ds)
    (hp : loadPosts fs today = some ps) :
    ps.Perm ds ∧
    (ds.length ≤ 12 →
      ps.Pairwise (fun p q => q.RawDate ≤ p.RawDate) ∧
      ∀ d : String, ps.filter (fun p => decide (p.RawDate = d))
        = ds.filter (fun p => decide (p.RawDate = d))) := by
  have hps : ps = goSortSlice postLess ds := by
    unfold loadPosts at hp
    rw [hw] at hp
    simp only [Option.map_some', Option.some.injEq] at hp
    exact hp.symm
  subst hps
  refine ⟨goSortSlice_perm postLess ds, ?_⟩
  intro h
  rw [goSortSlice_of_le_twelve postLess ds h, postLess_eq_keyLess]
  constructor
  · have hs := @goInsertionSort_pairwise Post String
      (inferInstanceAs (LinearOrder (OrderDual String))) (fun p => p.RawDate) ds
    exact hs.imp (fun hab => hab)
  · intro d
    have hf := @goInsertionSort_filter Post String
      (inferInstanceAs (LinearOrder (OrderDual String))) (fun p => p.RawDate) d ds
    refine Eq.trans (Eq.trans ?_ hf) ?_
    · exact List.filter_congr (fun p _ => decide_eq_decide.mpr Iff.rfl)
    · exact List.filter_congr (fun p _ => decide_eq_decide.mpr Iff.rfl)

/-- C1 fails as stated on a thirteen-file repository with equal dates:
the posts dated `2024-01-03` are discovered in the order `c`, `f`,
`i`, `l`, but `loadPosts` returns them in the order `i`, `c`, `l`,
`f` — `sort.Slice` is not stable beyond twelve elements, so equal-date
posts do not keep their discovery order. -/
theorem loadPosts_counterexample :
    (((loadPostsWalk fsTies ("2025-01-01")).getD []).filter
        (fun p => decide (p.RawDate = ("2024-01-03")))).map Post.Slug
      = [("c"), ("f"), ("i"), ("l")] ∧
    (((loadPosts fsTies ("2025-01-01")).getD []).filter
        (fun p => decide (p.RawDate = ("2024-01-03")))).map Post.Slug
      = [("i"), ("c"), ("l"), ("f")] :=
  ⟨by decide, by decide⟩

/-- Witness: the amended ordering claim at a three-post repository
with one tied date pair (the sorted result is date-descending and the
tied pair keeps walk order). -/
theorem loadPosts_sorted_stable_witness :
    loadPostsWalk fsSmall ("2024-01-01")
      = some ((loadPostsWalk fsSmall ("2024-01-01")).getD []) ∧
    loadPosts fsSmall ("2024-01-01")
      = some ((loadPosts fsSmall ("2024-01-01")).getD []) ∧
    ((loadPostsWalk fsSmall ("2024-01-01")).getD []).length ≤ 12 ∧
    ((loadPosts fsSmall ("2024-01-01")).getD []).Pairwise
      (fun p q => q.RawDate ≤ p.RawDate) ∧
    ((loadPosts fsSmall ("2024-01-01")).getD []).filter
        (fun p => decide (p.RawDate = ("2024-02-02")))
      = ((loadPostsWalk fsSmall ("2024-01-01")).getD []).filter
          (fun p => decide (p.RawDate = ("2024-02-02"))) := by
  refine ⟨rfl, rfl, by decide, ?_, ?_⟩
  · exact ((loadPosts_sorted_stable fsSmall ("2024-01-01") _ _ rfl rfl).2 (by decide)).1
  · exact ((loadPosts_sorted_stable fsSmall ("2024-01-01") _ _ rfl rfl).2
      (by decide)).2 ("2024-02-02")

/-- Witness: the reading-time claim at a one-post directory whose body
has three words (one minute). -/
theorem loadPost_readTime_witness :
    loadPost fsPlain ("2024-01-01") ("w")
      = some ((loadPost fsPlain ("2024-01-01") ("w")).getD default) ∧
    ((loadPost fsPlain ("2024-01-01") ("w")).getD default).ReadTimeInMinutes = 1 := by
  refine ⟨rfl, ?_⟩
  have h := (loadPost_readTime fsPlain ("2024-01-01") ("w")
    ((loadPost fsPlain ("2024-01-01") ("w")).getD default) rfl).1
  rw [h]
  decide

/-- Witness: the metadata claim at a titleless one-post directory (the
slug `w` becomes the title). -/
theorem extractMeta_spec_witness :
    extractMeta (goSplitNl ("hello world body")) ("title")
      = specExtractMeta (goSplitNl ("hello world body")) ("title") ∧
    fsFind fsPlain.posts (("w") ++ (".html")) = some ("hello world body") ∧
    extractMeta (goSplitNl ("hello world body")) ("title") = ("") ∧
    loadPost fsPlain ("2024-01-01") ("w")
      = some ((loadPost fsPlain ("2024-01-01") ("w")).getD default) ∧
    ((loadPost fsPlain ("2024-01-01") ("w")).getD default).Title = ("w") := by
  refine ⟨extractMeta_spec.1 _ _, by decide, by decide, rfl, ?_⟩
  exact extractMeta_spec.2 fsPlain ("2024-01-01") ("w") ("hello world body") _
    (by decide) (by decide) rfl

/-- Witness: the membership claim at a four-post directory with a
two-member collection `col` (members `p4`, `p1` in repository order). -/
theorem loadCollection_members_witness :
    loadCollection fsCol ("2024-07-01") ("col")
      = some ((loadCollection fsCol ("2024-07-01") ("col")).getD default) ∧
    loadPosts fsCol ("2024-07-01")
      = some ((loadPosts fsCol ("2024-07-01")).getD []) ∧
    ((loadCollection fsCol ("2024-07-01") ("col")).getD default).Posts
      = ((loadPosts fsCol ("2024-07-01")).getD []).filter
          (fun p => p.Collection == ("col")) ∧
    (((loadCollection fsCol ("2024-07-01") ("col")).getD default).Posts).map Post.Slug
      = [("p4"), ("p1")] := by
  refine ⟨rfl, rfl, ?_, by decide⟩
  exact loadCollection_members fsCol ("2024-07-01") ("col") _ _ rfl rfl

/-- Witness: the degradation claim at the post `p3`, whose collection
`ghost` has no collection file. -/
theorem loadPost_missing_collection_witness :
    fsFind fsCol.posts (("p3") ++ (".html"))
      = some (("<!-- date: 2024-03-01 -->\n<!-- collection: ghost -->\nbeta")) ∧
    extractMeta (goSplitNl
        (("<!-- date: 2024-03-01 -->\n<!-- collection: ghost -->\nbeta"))) ("collection")
      = ("ghost") ∧
    ((("ghost") : String) ≠ ("")) ∧
    fsFind fsCol.collections (("ghost") ++ (".html")) = none ∧
    ∃ p, loadPost fsCol ("2024-07-01") ("p3") = some p ∧
      p.Collection = ("ghost") ∧ p.CollectionTitle = ("") ∧
      p.CollectionDescription = ("") := by
  refine ⟨by decide, by decide, by decide, by decide, ?_⟩
  exact loadPost_missing_collection fsCol ("2024-07-01") ("p3")
    (("<!-- date: 2024-03-01 -->\n<!-- collection: ghost -->\nbeta")) ("ghost")
    (by decide) (by decide) (by decide) (by decide)

end BreakLab
